import Mathlib

/-!
# Verification of the image-colorizer region/compositing core

A shallow embedding of the algorithmic core of the `image-colorizer`
repository (`src/utils/bezierUtils.ts` and the path-builder / document
logic of `src/components/CanvasEditor.tsx`), together with proofs and
refutations of the specification's testable properties.

Modelling conventions:
* JavaScript numbers are modelled as exact rationals (`ℚ`); the only
  irrational primitive the source uses, `Math.sqrt`, either appears under
  comparisons that are equivalent to comparisons of squares (strictly
  monotone on nonnegative arguments), or is abstracted as an explicit
  function parameter `sqrtFn` where its value is irrelevant to the claim.
* A `Uint8ClampedArray` is modelled as a total function `ℕ → ℕ`; writes
  clamp to `[0, 255]` as the typed array does (all written values are
  integral here, so the array's round-half-to-even behaviour on
  non-integral values is unreachable).
* `Math.round x` is `⌊x + 1/2⌋` (JavaScript rounds halves toward +∞).
* Imperative loops become structural recursion / pointwise definitions;
  a fuel parameter with an `Option` result models a loop whose
  termination is part of what is being proved (`none` = the source would
  not terminate / exhaust the stack).
-/

namespace ImageColorizer

/-- `Math.round` for nonnegative-or-any rationals: JavaScript rounds
half-up, i.e. `⌊x + 1/2⌋`. -/
def jsRound (q : ℚ) : ℚ := ((⌊q + 1/2⌋ : ℤ) : ℚ)

/-- Storing a JavaScript number into a `Uint8ClampedArray` slot: clamp to
`[0,255]`.  All values stored by the modelled code are integral, so
flooring is exact. -/
def clampByte (q : ℚ) : ℕ := (min 255 (max 0 ⌊q⌋)).toNat

/-- `interface Point { x: number; y: number }` (bezierUtils.ts). -/
structure Point where
  x : ℚ
  y : ℚ
deriving DecidableEq, Repr

/-- Default point used for out-of-range list reads (never reached on the
index ranges the source iterates over). -/
def originPt : Point := ⟨0, 0⟩

/-- `interface ImageData { data: Uint8ClampedArray; width; height }`
(bezierUtils.ts).  `data` is a total function from byte index to byte. -/
structure ImageData where
  data : ℕ → ℕ
  width : ℕ
  height : ℕ

/-- Length of the pixel buffer, `data.length = 4 * width * height`. -/
def dataLen (img : ImageData) : ℕ := 4 * img.width * img.height

/-- `interface ColorRGBA { r g b a: number }` with JS-number channels. -/
structure ColorQ where
  r : ℚ
  g : ℚ
  b : ℚ
  a : ℚ
deriving DecidableEq, Repr

/-- The RGBA color stored at pixel byte-offset `i` of an image. -/
def pixelColor (img : ImageData) (i : ℕ) : ColorQ :=
  ⟨img.data i, img.data (i + 1), img.data (i + 2), img.data (i + 3)⟩

/-- Channel selector for the byte offset `k = j % 4` within a pixel. -/
def chan (c : ColorQ) (k : ℕ) : ℚ :=
  match k with
  | 0 => c.r
  | 1 => c.g
  | 2 => c.b
  | _ => c.a

/-- `BlendOptions.mode` (bezierUtils.ts lines 21-24). -/
inductive BlendMode where
  | normal
  | multiply
  | overlay
  | softLight
  | colorBurn
deriving DecidableEq, Repr

/-- `interface BlendOptions { mode; opacity }`. -/
structure BlendOptions where
  mode : BlendMode
  opacity : ℚ
deriving DecidableEq, Repr

/-- One channel of the `multiply` branch of `blendColors`. -/
def multiplyCh (b o : ℚ) : ℚ := b * o / 255

/-- One channel of the `overlay` branch of `blendColors`. -/
def overlayCh (b o : ℚ) : ℚ :=
  if b < 128 then 2 * b * o / 255 else 255 - 2 * (255 - b) * (255 - o) / 255

/-- One channel of the `soft-light` branch of `blendColors`; `sqrtFn`
abstracts `Math.sqrt`. -/
def softLightCh (sqrtFn : ℚ → ℚ) (b o : ℚ) : ℚ :=
  if o < 128 then b - (255 - 2 * o) * b * (255 - b) / (255 * 255)
  else b + (2 * o - 255) * (sqrtFn (b / 255) * 255 - b) / 255

/-- One channel of the `color-burn` branch of `blendColors`. -/
def colorBurnCh (b o : ℚ) : ℚ :=
  if o = 0 then 0 else max 0 (255 - (255 - b) * 255 / o)

/-- The pre-opacity blend result of `blendColors`
(bezierUtils.ts lines 235-286): per-channel blend, alpha from the base. -/
def blendResult (sqrtFn : ℚ → ℚ) (baseColor overlayColor : ColorQ)
    (mode : BlendMode) : ColorQ :=
  match mode with
  | .multiply =>
      ⟨multiplyCh baseColor.r overlayColor.r, multiplyCh baseColor.g overlayColor.g,
        multiplyCh baseColor.b overlayColor.b, baseColor.a⟩
  | .overlay =>
      ⟨overlayCh baseColor.r overlayColor.r, overlayCh baseColor.g overlayColor.g,
        overlayCh baseColor.b overlayColor.b, baseColor.a⟩
  | .softLight =>
      ⟨softLightCh sqrtFn baseColor.r overlayColor.r,
        softLightCh sqrtFn baseColor.g overlayColor.g,
        softLightCh sqrtFn baseColor.b overlayColor.b, baseColor.a⟩
  | .colorBurn =>
      ⟨colorBurnCh baseColor.r overlayColor.r, colorBurnCh baseColor.g overlayColor.g,
        colorBurnCh baseColor.b overlayColor.b, baseColor.a⟩
  | .normal => overlayColor

/-- `blendColors(baseColor, overlayColor, options)`
(bezierUtils.ts lines 227-295): blend per the mode, then interpolate
toward the base by `opacity` with `Math.round`; alpha from the base. -/
def blendColors (sqrtFn : ℚ → ℚ) (baseColor overlayColor : ColorQ)
    (options : BlendOptions) : ColorQ :=
  ⟨jsRound (baseColor.r +
      ((blendResult sqrtFn baseColor overlayColor options.mode).r - baseColor.r) *
        options.opacity),
    jsRound (baseColor.g +
      ((blendResult sqrtFn baseColor overlayColor options.mode).g - baseColor.g) *
        options.opacity),
    jsRound (baseColor.b +
      ((blendResult sqrtFn baseColor overlayColor options.mode).b - baseColor.b) *
        options.opacity),
    baseColor.a⟩

/-- `applyColorToMaskedRegion(baseImageData, mask, color, options)`
(bezierUtils.ts lines 300-332): start from a copy of the base buffer; for
every pixel whose mask red channel is positive, blend with effective
opacity `options.opacity * maskValue / 255` and store the clamped
channels. -/
def applyColorToMaskedRegion (sqrtFn : ℚ → ℚ) (baseImageData mask : ImageData)
    (color : ColorQ) (options : BlendOptions) : ImageData :=
  ⟨fun j =>
      if 4 * (j / 4) < dataLen baseImageData ∧ 0 < mask.data (4 * (j / 4)) then
        clampByte (chan
          (blendColors sqrtFn (pixelColor baseImageData (4 * (j / 4))) color
            ⟨options.mode, options.opacity * (mask.data (4 * (j / 4)) / 255)⟩)
          (j % 4))
      else baseImageData.data j,
    baseImageData.width, baseImageData.height⟩

lemma jsRound_natCast (n : ℕ) : jsRound (n : ℚ) = (n : ℚ) := by
  unfold jsRound
  have h1 : ((n : ℚ) + 1/2) = ((n : ℤ) : ℚ) + 1/2 := by push_cast; ring
  rw [h1, Int.floor_int_add]
  norm_num

lemma clampByte_natCast (n : ℕ) (hn : n ≤ 255) : clampByte (n : ℚ) = n := by
  unfold clampByte
  rw [Int.floor_natCast]
  have h0 : (0 : ℤ) ≤ (n : ℤ) := Int.natCast_nonneg n
  have h255 : (n : ℤ) ≤ 255 := by exact_mod_cast hn
  rw [max_eq_right h0, min_eq_right h255]
  exact Int.toNat_natCast n

lemma blendColors_opacity_zero (sqrtFn : ℚ → ℚ) (overlayColor : ColorQ)
    (mode : BlendMode) (br bg bb ba : ℕ) (o : ℚ) (ho : o = 0) :
    blendColors sqrtFn ⟨br, bg, bb, ba⟩ overlayColor ⟨mode, o⟩ =
      ⟨br, bg, bb, ba⟩ := by
  subst ho
  unfold blendColors
  simp only [mul_zero, add_zero]
  simp [jsRound_natCast]

/-- C1. For every base image with byte-valued data, every mask, fill
color and blend mode, the compositor with `opacity = 0` is the identity:
`blendColors` returns the base color unchanged, and
`applyColorToMaskedRegion` returns a buffer equal to the base image at
every byte (all RGBA channels), regardless of blend mode or mask. -/
theorem compositor_opacity_zero_is_identity (sqrtFn : ℚ → ℚ)
    (base mask : ImageData) (color : ColorQ) (mode : BlendMode)
    (hb : ∀ j, base.data j ≤ 255) :
    (∀ br bg bb ba : ℕ,
        blendColors sqrtFn ⟨br, bg, bb, ba⟩ color ⟨mode, 0⟩ = ⟨br, bg, bb, ba⟩) ∧
    (∀ j, (applyColorToMaskedRegion sqrtFn base mask color ⟨mode, 0⟩).data j =
        base.data j) := by
  constructor
  · intro br bg bb ba
    exact blendColors_opacity_zero sqrtFn color mode br bg bb ba 0 rfl
  · intro j
    show (if _ ∧ _ then _ else _) = _
    split
    · next hcond =>
      have hz : (0 : ℚ) * ((mask.data (4 * (j / 4)) : ℚ) / 255) = 0 := by ring
      rw [show (pixelColor base (4 * (j / 4))) =
          ⟨(base.data (4 * (j / 4)) : ℚ), (base.data (4 * (j / 4) + 1) : ℚ),
            (base.data (4 * (j / 4) + 2) : ℚ), (base.data (4 * (j / 4) + 3) : ℚ)⟩ from rfl]
      rw [blendColors_opacity_zero sqrtFn color mode _ _ _ _ _ hz]
      have hlt : j % 4 < 4 := Nat.mod_lt j (by norm_num)
      interval_cases h : j % 4 <;>
        simp only [chan] <;>
        rw [clampByte_natCast _ (hb _)] <;>
        (congr 1; omega)
    · rfl

/-- Concrete input instantiating `compositor_opacity_zero_is_identity`. -/
def c1Base : ImageData := ⟨fun _ => 100, 1, 1⟩

/-- Concrete mask instantiating `compositor_opacity_zero_is_identity`. -/
def c1Mask : ImageData := ⟨fun _ => 255, 1, 1⟩

/-- Witness: the C1 theorem applied at a concrete 1×1 image, full mask,
red fill and multiply mode. -/
theorem compositor_opacity_zero_is_identity_witness :
    (∀ br bg bb ba : ℕ,
        blendColors id ⟨br, bg, bb, ba⟩ ⟨255, 0, 0, 255⟩ ⟨.multiply, 0⟩ =
          ⟨br, bg, bb, ba⟩) ∧
    (∀ j, (applyColorToMaskedRegion id c1Base c1Mask ⟨255, 0, 0, 255⟩
        ⟨.multiply, 0⟩).data j = c1Base.data j) :=
  compositor_opacity_zero_is_identity id c1Base c1Mask ⟨255, 0, 0, 255⟩ .multiply
    (fun _ => by norm_num [c1Base])

/-! ## Morphological operations (bezierUtils.ts lines 344-399) -/

/-- Byte index of the red channel of pixel `(x, y)` in a buffer of width
`w`: `((y * width + x) * 4)`. -/
def redIdx (w x y : ℕ) : ℕ := (y * w + x) * 4

/-- The interior region the morphology loops process: `radius ≤ x < width
- radius` and likewise for `y` (`x + r < w` is the truncation-safe form of
`x < w - r`).  Border pixels are left as copied. -/
def MorphInterior (w h r x y : ℕ) : Prop :=
  r ≤ x ∧ x + r < w ∧ r ≤ y ∧ y + r < h

instance (w h r x y : ℕ) : Decidable (MorphInterior w h r x y) :=
  inferInstanceAs (Decidable (_ ∧ _ ∧ _ ∧ _))

/-- Coordinates of the `(2r+1) × (2r+1)` kernel window around `(x, y)`,
in the `ky`-outer / `kx`-inner scan order of the source. -/
def nbhdCoords (r x y : ℕ) : List (ℕ × ℕ) :=
  (List.range (2 * r + 1)).flatMap (fun dy =>
    (List.range (2 * r + 1)).map (fun dx => (x - r + dx, y - r + dy)))

/-- The red-channel values `mask.data[((y+ky)*width + (x+kx))*4]` read by
the kernel loops. -/
def nbhdVals (m : ImageData) (x y r : ℕ) : List ℕ :=
  (nbhdCoords r x y).map (fun q => m.data (redIdx m.width q.1 q.2))

/-- `maxValue` accumulation of `morphologyDilate` (initial value 0). -/
def nbhdMax (m : ImageData) (x y r : ℕ) : ℕ := (nbhdVals m x y r).foldl max 0

/-- `minValue` accumulation of `morphologyErode` (initial value 255). -/
def nbhdMin (m : ImageData) (x y r : ℕ) : ℕ := (nbhdVals m x y r).foldl min 255

/-- `morphologyDilate(mask, kernelSize)` (bezierUtils.ts lines 349-373):
result starts as a copy of the mask; every interior pixel gets its RGB
channels set to the neighbourhood max of the red channel and alpha 255. -/
def morphologyDilate (mask : ImageData) (kernelSize : ℕ) : ImageData :=
  ⟨fun j =>
      if MorphInterior mask.width mask.height (kernelSize / 2)
          ((j / 4) % mask.width) ((j / 4) / mask.width) then
        if j % 4 = 3 then 255
        else nbhdMax mask ((j / 4) % mask.width) ((j / 4) / mask.width) (kernelSize / 2)
      else mask.data j,
    mask.width, mask.height⟩

/-- `morphologyErode(mask, kernelSize)` (bezierUtils.ts lines 375-399):
as dilate, with the neighbourhood min (initial 255). -/
def morphologyErode (mask : ImageData) (kernelSize : ℕ) : ImageData :=
  ⟨fun j =>
      if MorphInterior mask.width mask.height (kernelSize / 2)
          ((j / 4) % mask.width) ((j / 4) / mask.width) then
        if j % 4 = 3 then 255
        else nbhdMin mask ((j / 4) % mask.width) ((j / 4) / mask.width) (kernelSize / 2)
      else mask.data j,
    mask.width, mask.height⟩

/-- `morphologyClose(mask, kernelSize)` (bezierUtils.ts lines 344-347):
dilate then erode. -/
def morphologyClose (mask : ImageData) (kernelSize : ℕ) : ImageData :=
  morphologyErode (morphologyDilate mask kernelSize) kernelSize

lemma le_foldl_max_init (l : List ℕ) (a : ℕ) : a ≤ l.foldl max a := by
  induction l generalizing a with
  | nil => exact le_refl a
  | cons x xs ih => exact le_trans (le_max_left a x) (ih (max a x))

lemma le_foldl_max_mem (l : List ℕ) (a v : ℕ) (hv : v ∈ l) : v ≤ l.foldl max a := by
  induction l generalizing a with
  | nil => cases hv
  | cons x xs ih =>
    rcases List.mem_cons.mp hv with h | h
    · subst h
      exact le_trans (le_max_right a v) (le_foldl_max_init xs (max a v))
    · exact ih (max a x) h

lemma foldl_max_le_of (l : List ℕ) (a B : ℕ) (ha : a ≤ B) (h : ∀ v ∈ l, v ≤ B) :
    l.foldl max a ≤ B := by
  induction l generalizing a with
  | nil => exact ha
  | cons x xs ih =>
    exact ih (max a x) (max_le ha (h x (List.mem_cons_self x xs)))
      (fun v hv => h v (List.mem_cons_of_mem x hv))

lemma foldl_min_le_init (l : List ℕ) (a : ℕ) : l.foldl min a ≤ a := by
  induction l generalizing a with
  | nil => exact le_refl a
  | cons x xs ih => exact le_trans (ih (min a x)) (min_le_left a x)

lemma foldl_min_le_mem (l : List ℕ) (a v : ℕ) (hv : v ∈ l) : l.foldl min a ≤ v := by
  induction l generalizing a with
  | nil => cases hv
  | cons x xs ih =>
    rcases List.mem_cons.mp hv with h | h
    · subst h
      exact le_trans (foldl_min_le_init xs (min a v)) (min_le_right a v)
    · exact ih (min a x) h

lemma le_foldl_min_of (l : List ℕ) (a B : ℕ) (ha : B ≤ a) (h : ∀ v ∈ l, B ≤ v) :
    B ≤ l.foldl min a := by
  induction l generalizing a with
  | nil => exact ha
  | cons x xs ih =>
    exact ih (min a x) (le_min ha (h x (List.mem_cons_self x xs)))
      (fun v hv => h v (List.mem_cons_of_mem x hv))

lemma foldl_min_init_mono (l : List ℕ) (a b : ℕ) (hab : a ≤ b) :
    l.foldl min a ≤ l.foldl min b := by
  induction l generalizing a b with
  | nil => exact hab
  | cons x xs ih => exact ih _ _ (min_le_min hab (le_refl x))

lemma foldl_min_map_mono {α : Type} (l : List α) (f g : α → ℕ) (a : ℕ)
    (h : ∀ q ∈ l, f q ≤ g q) :
    (l.map f).foldl min a ≤ (l.map g).foldl min a := by
  induction l generalizing a with
  | nil => exact le_refl a
  | cons x xs ih =>
    simp only [List.map_cons, List.foldl_cons]
    calc (xs.map f).foldl min (min a (f x))
        ≤ (xs.map f).foldl min (min a (g x)) :=
          foldl_min_init_mono _ _ _
            (min_le_min (le_refl a) (h x (List.mem_cons_self x _)))
      _ ≤ (xs.map g).foldl min (min a (g x)) :=
          ih (min a (g x)) (fun q hq => h q (List.mem_cons_of_mem x hq))

lemma mem_nbhdCoords (r x y : ℕ) (hx : r ≤ x) (hy : r ≤ y) (q : ℕ × ℕ) :
    q ∈ nbhdCoords r x y ↔
      x - r ≤ q.1 ∧ q.1 ≤ x + r ∧ y - r ≤ q.2 ∧ q.2 ≤ y + r := by
  simp only [nbhdCoords, List.mem_flatMap, List.mem_map, List.mem_range]
  constructor
  · rintro ⟨dy, hdy, dx, hdx, rfl⟩
    refine ⟨Nat.le_add_right _ _, by omega, Nat.le_add_right _ _, by omega⟩
  · rintro ⟨h1, h2, h3, h4⟩
    exact ⟨q.2 - (y - r), by omega, q.1 - (x - r), by omega, by
      rcases q with ⟨qx, qy⟩
      simp only [Prod.mk.injEq]
      omega⟩

lemma pixel_decode (w x y : ℕ) (hx : x < w) :
    (y * w + x) % w = x ∧ (y * w + x) / w = y := by
  constructor
  · rw [Nat.add_comm, Nat.add_mul_mod_self_right]
    exact Nat.mod_eq_of_lt hx
  · rw [Nat.add_comm, Nat.add_mul_div_right _ _ (by omega : 0 < w),
      Nat.div_eq_of_lt hx, Nat.zero_add]

lemma redIdx_div (w x y : ℕ) : redIdx w x y / 4 = y * w + x :=
  Nat.mul_div_cancel _ (by norm_num)

lemma redIdx_mod (w x y : ℕ) : redIdx w x y % 4 = 0 :=
  Nat.mul_mod_left _ 4

@[simp] lemma dilate_width (m : ImageData) (k : ℕ) :
    (morphologyDilate m k).width = m.width := rfl

@[simp] lemma dilate_height (m : ImageData) (k : ℕ) :
    (morphologyDilate m k).height = m.height := rfl

@[simp] lemma erode_width (m : ImageData) (k : ℕ) :
    (morphologyErode m k).width = m.width := rfl

@[simp] lemma erode_height (m : ImageData) (k : ℕ) :
    (morphologyErode m k).height = m.height := rfl

@[simp] lemma close_width (m : ImageData) (k : ℕ) :
    (morphologyClose m k).width = m.width := rfl

@[simp] lemma close_height (m : ImageData) (k : ℕ) :
    (morphologyClose m k).height = m.height := rfl

lemma dilate_data_copy (m : ImageData) (k j : ℕ)
    (h : ¬ MorphInterior m.width m.height (k / 2)
      ((j / 4) % m.width) ((j / 4) / m.width)) :
    (morphologyDilate m k).data j = m.data j := by
  simp only [morphologyDilate]
  rw [if_neg h]

lemma erode_data_copy (m : ImageData) (k j : ℕ)
    (h : ¬ MorphInterior m.width m.height (k / 2)
      ((j / 4) % m.width) ((j / 4) / m.width)) :
    (morphologyErode m k).data j = m.data j := by
  simp only [morphologyErode]
  rw [if_neg h]

lemma erode_data_alpha (m : ImageData) (k j : ℕ)
    (hI : MorphInterior m.width m.height (k / 2)
      ((j / 4) % m.width) ((j / 4) / m.width)) (h3 : j % 4 = 3) :
    (morphologyErode m k).data j = 255 := by
  simp only [morphologyErode]
  rw [if_pos hI, if_pos h3]

lemma erode_data_val (m : ImageData) (k j : ℕ)
    (hI : MorphInterior m.width m.height (k / 2)
      ((j / 4) % m.width) ((j / 4) / m.width)) (h3 : j % 4 ≠ 3) :
    (morphologyErode m k).data j =
      nbhdMin m ((j / 4) % m.width) ((j / 4) / m.width) (k / 2) := by
  simp only [morphologyErode]
  rw [if_pos hI, if_neg h3]

lemma dilate_red (m : ImageData) (k x y : ℕ) (hx : x < m.width) :
    (morphologyDilate m k).data (redIdx m.width x y) =
      if MorphInterior m.width m.height (k / 2) x y then nbhdMax m x y (k / 2)
      else m.data (redIdx m.width x y) := by
  simp only [morphologyDilate]
  rw [redIdx_div, (pixel_decode m.width x y hx).1, (pixel_decode m.width x y hx).2,
    redIdx_mod]
  norm_num

lemma erode_red (m : ImageData) (k x y : ℕ) (hx : x < m.width) :
    (morphologyErode m k).data (redIdx m.width x y) =
      if MorphInterior m.width m.height (k / 2) x y then nbhdMin m x y (k / 2)
      else m.data (redIdx m.width x y) := by
  simp only [morphologyErode]
  rw [redIdx_div, (pixel_decode m.width x y hx).1, (pixel_decode m.width x y hx).2,
    redIdx_mod]
  norm_num

lemma close_red_interior (m : ImageData) (k x y : ℕ) (hx : x < m.width)
    (hI : MorphInterior m.width m.height (k / 2) x y) :
    (morphologyClose m k).data (redIdx m.width x y) =
      nbhdMin (morphologyDilate m k) x y (k / 2) :=
  (erode_red (morphologyDilate m k) k x y hx).trans (if_pos hI)

lemma close_red_copy (m : ImageData) (k x y : ℕ) (hx : x < m.width)
    (hI : ¬ MorphInterior m.width m.height (k / 2) x y) :
    (morphologyClose m k).data (redIdx m.width x y) =
      m.data (redIdx m.width x y) :=
  ((erode_red (morphologyDilate m k) k x y hx).trans (if_neg hI)).trans
    ((dilate_red m k x y hx).trans (if_neg hI))

lemma nbhdCoords_symm (r x y qx qy : ℕ) (hx : r ≤ x) (hy : r ≤ y)
    (hqx : r ≤ qx) (hqy : r ≤ qy) (h : (qx, qy) ∈ nbhdCoords r x y) :
    (x, y) ∈ nbhdCoords r qx qy := by
  rw [mem_nbhdCoords r x y hx hy] at h
  rw [mem_nbhdCoords r qx qy hqx hqy]
  simp only at h ⊢
  omega

lemma nbhdVals_eq_map (m : ImageData) (x y r : ℕ) :
    nbhdVals m x y r =
      (nbhdCoords r x y).map (fun q => m.data (redIdx m.width q.1 q.2)) := rfl

/-- Neighbourhood max of an abstract data function (used to reason about
stacked morphology passes without re-unfolding image structures). -/
def gMax (f : ℕ → ℕ) (w x y r : ℕ) : ℕ :=
  ((nbhdCoords r x y).map (fun q => f (redIdx w q.1 q.2))).foldl max 0

/-- Neighbourhood min of an abstract data function. -/
def gMin (f : ℕ → ℕ) (w x y r : ℕ) : ℕ :=
  ((nbhdCoords r x y).map (fun q => f (redIdx w q.1 q.2))).foldl min 255

lemma nbhdMax_eq_gMax (m : ImageData) (x y r : ℕ) :
    nbhdMax m x y r = gMax m.data m.width x y r := rfl

lemma nbhdMin_eq_gMin (m : ImageData) (x y r : ℕ) :
    nbhdMin m x y r = gMin m.data m.width x y r := rfl

/-- Abstract form of `dilate (close m) ≤ dilate m` on the red channel:
`D`, `C`, `D2` are the red-channel behaviours of one dilation, one
closing, and a dilation of the closing. -/
lemma dilate_close_le_dilate_core (w h r : ℕ) (mdata D C D2 : ℕ → ℕ)
    (hD : ∀ x y, x < w → y < h → D (redIdx w x y) =
      if MorphInterior w h r x y then gMax mdata w x y r else mdata (redIdx w x y))
    (hC : ∀ x y, x < w → y < h → C (redIdx w x y) =
      if MorphInterior w h r x y then gMin D w x y r else mdata (redIdx w x y))
    (hD2 : ∀ x y, x < w → y < h → D2 (redIdx w x y) =
      if MorphInterior w h r x y then gMax C w x y r else C (redIdx w x y))
    (x y : ℕ) (hx : x < w) (hy : y < h) :
    D2 (redIdx w x y) ≤ D (redIdx w x y) := by
  by_cases hI : MorphInterior w h r x y
  · obtain ⟨hIa, hIb, hIc, hId⟩ := id hI
    rw [hD2 x y hx hy, if_pos hI, hD x y hx hy, if_pos hI]
    apply foldl_max_le_of _ _ _ (Nat.zero_le _)
    intro v hv
    obtain ⟨q, hq, rfl⟩ := List.mem_map.mp hv
    have hqb := (mem_nbhdCoords r x y hIa hIc q).mp hq
    have hq1 : q.1 < w := by omega
    have hq2 : q.2 < h := by omega
    by_cases hqI : MorphInterior w h r q.1 q.2
    · rw [hC q.1 q.2 hq1 hq2, if_pos hqI]
      have hmem : D (redIdx w x y) ∈
          (nbhdCoords r q.1 q.2).map (fun u => D (redIdx w u.1 u.2)) :=
        List.mem_map_of_mem _
          (nbhdCoords_symm r x y q.1 q.2 hIa hIc hqI.1 hqI.2.2.1
            (by rcases q with ⟨q1, q2⟩; exact hq))
      calc gMin D w q.1 q.2 r
          ≤ D (redIdx w x y) := foldl_min_le_mem _ 255 _ hmem
        _ = gMax mdata w x y r := by rw [hD x y hx hy, if_pos hI]
    · rw [hC q.1 q.2 hq1 hq2, if_neg hqI]
      exact le_foldl_max_mem _ 0 _ (List.mem_map_of_mem _ hq)
  · rw [hD2 x y hx hy, if_neg hI, hC x y hx hy, if_neg hI, hD x y hx hy, if_neg hI]

/-- Abstract form of the key step: the erosion inputs of a second closing
agree with those of the first on every interior window. -/
lemma gMin_dilate_close_eq_core (w h r : ℕ) (mdata D C D2 : ℕ → ℕ)
    (hD : ∀ x y, x < w → y < h → D (redIdx w x y) =
      if MorphInterior w h r x y then gMax mdata w x y r else mdata (redIdx w x y))
    (hC : ∀ x y, x < w → y < h → C (redIdx w x y) =
      if MorphInterior w h r x y then gMin D w x y r else mdata (redIdx w x y))
    (hD2 : ∀ x y, x < w → y < h → D2 (redIdx w x y) =
      if MorphInterior w h r x y then gMax C w x y r else C (redIdx w x y))
    (x y : ℕ) (hI : MorphInterior w h r x y) :
    gMin D2 w x y r = gMin D w x y r := by
  obtain ⟨hIa, hIb, hIc, hId⟩ := id hI
  have hx : x < w := by omega
  have hy : y < h := by omega
  apply le_antisymm
  · apply foldl_min_map_mono
    intro q hq
    have hqb := (mem_nbhdCoords r x y hIa hIc q).mp hq
    exact dilate_close_le_dilate_core w h r mdata D C D2 hD hC hD2 q.1 q.2
      (by omega) (by omega)
  · apply le_foldl_min_of _ _ _ (foldl_min_le_init _ _)
    intro v hv
    obtain ⟨q, hq, rfl⟩ := List.mem_map.mp hv
    have hqb := (mem_nbhdCoords r x y hIa hIc q).mp hq
    have hq1 : q.1 < w := by omega
    have hq2 : q.2 < h := by omega
    by_cases hqI : MorphInterior w h r q.1 q.2
    · rw [hD2 q.1 q.2 hq1 hq2, if_pos hqI]
      have hmem : C (redIdx w x y) ∈
          (nbhdCoords r q.1 q.2).map (fun u => C (redIdx w u.1 u.2)) :=
        List.mem_map_of_mem _
          (nbhdCoords_symm r x y q.1 q.2 hIa hIc hqI.1 hqI.2.2.1
            (by rcases q with ⟨q1, q2⟩; exact hq))
      calc gMin D w x y r
          = C (redIdx w x y) := by rw [hC x y hx hy, if_pos hI]
        _ ≤ gMax C w q.1 q.2 r := le_foldl_max_mem _ 0 _ hmem
    · rw [hD2 q.1 q.2 hq1 hq2, if_neg hqI, hC q.1 q.2 hq1 hq2, if_neg hqI]
      have hd : mdata (redIdx w q.1 q.2) = D (redIdx w q.1 q.2) := by
        rw [hD q.1 q.2 hq1 hq2, if_neg hqI]
      rw [hd]
      exact foldl_min_le_mem _ 255 _ (List.mem_map_of_mem _ hq)

lemma imageData_ext (a b : ImageData) (hd : ∀ j, a.data j = b.data j)
    (hw : a.width = b.width) (hh : a.height = b.height) : a = b := by
  cases a
  cases b
  simp only [ImageData.mk.injEq]
  exact ⟨funext hd, hw, hh⟩

/-- Red-channel characterization of one closing pass, phrased against the
original mask's dimensions. -/
lemma close_red_char (m : ImageData) (k x y : ℕ) (hx : x < m.width)
    (hy : y < m.height) :
    (morphologyClose m k).data (redIdx m.width x y) =
      if MorphInterior m.width m.height (k / 2) x y then
        gMin (morphologyDilate m k).data m.width x y (k / 2)
      else m.data (redIdx m.width x y) := by
  by_cases hI : MorphInterior m.width m.height (k / 2) x y
  · rw [if_pos hI]
    exact close_red_interior m k x y hx hI
  · rw [if_neg hI]
    exact close_red_copy m k x y hx hI

/-- Red-channel characterization of a dilation, phrased with `gMax`. -/
lemma dilate_red_char (m : ImageData) (k x y : ℕ) (hx : x < m.width) :
    (morphologyDilate m k).data (redIdx m.width x y) =
      if MorphInterior m.width m.height (k / 2) x y then
        gMax m.data m.width x y (k / 2)
      else m.data (redIdx m.width x y) :=
  dilate_red m k x y hx

/-- Red-channel characterization of dilating a closed mask, phrased
against the original mask's dimensions. -/
lemma dilate_close_red_char (m : ImageData) (k x y : ℕ) (hx : x < m.width) :
    (morphologyDilate (morphologyClose m k) k).data (redIdx m.width x y) =
      if MorphInterior m.width m.height (k / 2) x y then
        gMax (morphologyClose m k).data m.width x y (k / 2)
      else (morphologyClose m k).data (redIdx m.width x y) :=
  dilate_red (morphologyClose m k) k x y hx

/-- C6. `morphologyClose` is idempotent: closing a mask twice equals
closing it once, at every byte of the buffer.  Proved for every mask and
kernel size, which in particular covers masks rasterized from convex
polygons. -/
theorem morphologyClose_idempotent (mask : ImageData) (k : ℕ) :
    morphologyClose (morphologyClose mask k) k = morphologyClose mask k := by
  refine imageData_ext _ _ (fun j => ?_) rfl rfl
  by_cases hI : MorphInterior mask.width mask.height (k / 2)
    ((j / 4) % mask.width) ((j / 4) / mask.width)
  · by_cases h3 : j % 4 = 3
    · have hL : (morphologyClose (morphologyClose mask k) k).data j = 255 :=
        erode_data_alpha (morphologyDilate (morphologyClose mask k) k) k j hI h3
      have hR : (morphologyClose mask k).data j = 255 :=
        erode_data_alpha (morphologyDilate mask k) k j hI h3
      rw [hL, hR]
    · have hxw : (j / 4) % mask.width < mask.width := by
        obtain ⟨h1, h2, h3', h4⟩ := hI
        omega
      have hyh : (j / 4) / mask.width < mask.height := by
        obtain ⟨h1, h2, h3', h4⟩ := hI
        omega
      have hL : (morphologyClose (morphologyClose mask k) k).data j =
          nbhdMin (morphologyDilate (morphologyClose mask k) k)
            ((j / 4) % mask.width) ((j / 4) / mask.width) (k / 2) :=
        erode_data_val (morphologyDilate (morphologyClose mask k) k) k j hI h3
      have hR : (morphologyClose mask k).data j =
          nbhdMin (morphologyDilate mask k)
            ((j / 4) % mask.width) ((j / 4) / mask.width) (k / 2) :=
        erode_data_val (morphologyDilate mask k) k j hI h3
      have hL' : nbhdMin (morphologyDilate (morphologyClose mask k) k)
            ((j / 4) % mask.width) ((j / 4) / mask.width) (k / 2) =
          gMin (morphologyDilate (morphologyClose mask k) k).data mask.width
            ((j / 4) % mask.width) ((j / 4) / mask.width) (k / 2) := rfl
      have hR' : nbhdMin (morphologyDilate mask k)
            ((j / 4) % mask.width) ((j / 4) / mask.width) (k / 2) =
          gMin (morphologyDilate mask k).data mask.width
            ((j / 4) % mask.width) ((j / 4) / mask.width) (k / 2) := rfl
      rw [hL, hR, hL', hR']
      exact gMin_dilate_close_eq_core mask.width mask.height (k / 2) mask.data
        (morphologyDilate mask k).data (morphologyClose mask k).data
        (morphologyDilate (morphologyClose mask k) k).data
        (fun x y hx _ => dilate_red_char mask k x y hx)
        (fun x y hx hy => close_red_char mask k x y hx hy)
        (fun x y hx _ => dilate_close_red_char mask k x y hx)
        _ _ hI
  · have e1 : (morphologyErode (morphologyDilate (morphologyClose mask k) k) k).data j =
        (morphologyDilate (morphologyClose mask k) k).data j :=
      erode_data_copy (morphologyDilate (morphologyClose mask k) k) k j hI
    have e2 : (morphologyDilate (morphologyClose mask k) k).data j =
        (morphologyClose mask k).data j :=
      dilate_data_copy (morphologyClose mask k) k j hI
    exact e1.trans e2


lemma self_mem_nbhdCoords (r x y : ℕ) (hx : r ≤ x) (hy : r ≤ y) :
    (x, y) ∈ nbhdCoords r x y := by
  rw [mem_nbhdCoords r x y hx hy]
  refine ⟨Nat.sub_le x r, Nat.le_add_right x r, Nat.sub_le y r, Nat.le_add_right y r⟩

/-- C10. Pointwise order of the morphology operations with the identity
on the mask (red) channel: at every pixel, erode ≤ mask ≤ dilate;
moreover border (non-interior) pixels are copied unchanged by both. -/
theorem morphology_erode_le_id_le_dilate (mask : ImageData) (k x y : ℕ)
    (hx : x < mask.width) (hy : y < mask.height) :
    ((morphologyErode mask k).data (redIdx mask.width x y) ≤
        mask.data (redIdx mask.width x y) ∧
      mask.data (redIdx mask.width x y) ≤
        (morphologyDilate mask k).data (redIdx mask.width x y)) ∧
    (¬ MorphInterior mask.width mask.height (k / 2) x y →
      (morphologyErode mask k).data (redIdx mask.width x y) =
          mask.data (redIdx mask.width x y) ∧
        (morphologyDilate mask k).data (redIdx mask.width x y) =
          mask.data (redIdx mask.width x y)) := by
  constructor
  · by_cases hI : MorphInterior mask.width mask.height (k / 2) x y
    · have hmem : mask.data (redIdx mask.width x y) ∈ nbhdVals mask x y (k / 2) := by
        rw [nbhdVals_eq_map]
        exact List.mem_map_of_mem _ (self_mem_nbhdCoords (k / 2) x y hI.1 hI.2.2.1)
      constructor
      · rw [erode_red mask k x y hx, if_pos hI]
        exact foldl_min_le_mem _ 255 _ hmem
      · rw [dilate_red mask k x y hx, if_pos hI]
        exact le_foldl_max_mem _ 0 _ hmem
    · rw [erode_red mask k x y hx, if_neg hI, dilate_red mask k x y hx, if_neg hI]
      exact ⟨le_refl _, le_refl _⟩
  · intro hI
    rw [erode_red mask k x y hx, if_neg hI, dilate_red mask k x y hx, if_neg hI]
    exact ⟨rfl, rfl⟩

/-- Concrete 4×4 single-pixel mask for the C10 witness. -/
def c10Mask : ImageData := ⟨fun j => if j = redIdx 4 1 1 then 255 else 0, 4, 4⟩

/-- Witness: the C10 theorem applied at a concrete mask, kernel size 3
and pixel (1,1). -/
theorem morphology_erode_le_id_le_dilate_witness :
    (((morphologyErode c10Mask 3).data (redIdx c10Mask.width 1 1) ≤
        c10Mask.data (redIdx c10Mask.width 1 1) ∧
      c10Mask.data (redIdx c10Mask.width 1 1) ≤
        (morphologyDilate c10Mask 3).data (redIdx c10Mask.width 1 1)) ∧
    (¬ MorphInterior c10Mask.width c10Mask.height (3 / 2) 1 1 →
      (morphologyErode c10Mask 3).data (redIdx c10Mask.width 1 1) =
          c10Mask.data (redIdx c10Mask.width 1 1) ∧
        (morphologyDilate c10Mask 3).data (redIdx c10Mask.width 1 1) =
          c10Mask.data (redIdx c10Mask.width 1 1))) :=
  morphology_erode_le_id_le_dilate c10Mask 3 1 1 (by norm_num [c10Mask])
    (by norm_num [c10Mask])

/-! ## Edge detection (bezierUtils.ts lines 158-222) -/

/-- `convertToGrayscale(imageData)` (bezierUtils.ts lines 204-222): for
every pixel, store the rounded luminance `0.299 r + 0.587 g + 0.114 b` in
the R, G and B channels and copy alpha. -/
def convertToGrayscale (img : ImageData) : ImageData :=
  ⟨fun j =>
      if j < dataLen img then
        if j % 4 = 3 then img.data j
        else clampByte (jsRound
          (299/1000 * (img.data (4 * (j / 4)) : ℚ) +
            587/1000 * (img.data (4 * (j / 4) + 1) : ℚ) +
            114/1000 * (img.data (4 * (j / 4) + 2) : ℚ)))
      else img.data j,
    img.width, img.height⟩

/-- The `sobelX` kernel `[-1, 0, 1, -2, 0, 2, -1, 0, 1]`. -/
def sobelX (i : ℕ) : ℤ := [(-1 : ℤ), 0, 1, -2, 0, 2, -1, 0, 1].getD i 0

/-- The `sobelY` kernel `[-1, -2, -1, 0, 0, 0, 1, 2, 1]`. -/
def sobelY (i : ℕ) : ℤ := [(-1 : ℤ), -2, -1, 0, 0, 0, 1, 2, 1].getD i 0

/-- The horizontal Sobel response `gx` at interior pixel `(x, y)` of the
grayscale image `g`: kernel offsets `ky, kx ∈ {-1,0,1}` are shifted to
`{0,1,2}` so the reads are `g.data[((y+ky-1)*w + (x+kx-1))*4]`. -/
def sobelGx (g : ImageData) (x y : ℕ) : ℤ :=
  ((List.range 3).flatMap (fun ky => (List.range 3).map (fun kx =>
    (g.data (redIdx g.width (x + kx - 1) (y + ky - 1)) : ℤ) *
      sobelX (ky * 3 + kx)))).sum

/-- The vertical Sobel response `gy` at interior pixel `(x, y)`. -/
def sobelGy (g : ImageData) (x y : ℕ) : ℤ :=
  ((List.range 3).flatMap (fun ky => (List.range 3).map (fun kx =>
    (g.data (redIdx g.width (x + kx - 1) (y + ky - 1)) : ℤ) *
      sobelY (ky * 3 + kx)))).sum

/-- `detectEdges(imageData, threshold)` (bezierUtils.ts lines 158-199):
result starts as a copy of the *original* image; for every interior pixel
(`1 ≤ x ≤ w-2`, `1 ≤ y ≤ h-2`) the Sobel magnitude over the grayscale
red channel decides edge (255,255,255,255) versus non-edge (0,0,0,255).
The comparison `Math.sqrt(gx²+gy²) > threshold` is modelled by the
equivalent `gx² + gy² > threshold²` (the threshold is a nonnegative
integer and squaring is strictly monotone on nonnegatives). -/
def detectEdges (img : ImageData) (threshold : ℕ) : ImageData :=
  ⟨fun j =>
      if 1 ≤ (j / 4) % img.width ∧ (j / 4) % img.width + 1 < img.width ∧
          1 ≤ (j / 4) / img.width ∧ (j / 4) / img.width + 1 < img.height then
        if j % 4 = 3 then 255
        else if (threshold : ℤ) ^ 2 <
            (sobelGx (convertToGrayscale img) ((j / 4) % img.width)
              ((j / 4) / img.width)) ^ 2 +
            (sobelGy (convertToGrayscale img) ((j / 4) % img.width)
              ((j / 4) / img.width)) ^ 2 then 255
        else 0
      else img.data j,
    img.width, img.height⟩

lemma redIdx_add_div (w x y c : ℕ) (hc : c < 4) : (redIdx w x y + c) / 4 = y * w + x := by
  unfold redIdx
  omega

lemma redIdx_add_mod (w x y c : ℕ) (hc : c < 4) : (redIdx w x y + c) % 4 = c := by
  unfold redIdx
  omega

lemma sqrt_mag_gt_iff (t : ℕ) (gx gy : ℤ) :
    ((t : ℝ) < Real.sqrt ((gx : ℝ) ^ 2 + (gy : ℝ) ^ 2)) ↔
      ((t : ℤ) ^ 2 < gx ^ 2 + gy ^ 2) := by
  rw [Real.lt_sqrt (by positivity)]
  constructor
  · intro h
    exact_mod_cast h
  · intro h
    exact_mod_cast h

/-- C9 (amended). Interior pixels of `detectEdges` output are binary:
RGB all 255 exactly when the Sobel gradient magnitude over the grayscale
buffer exceeds the threshold, RGB all 0 otherwise, alpha 255; border
pixels (the one-pixel frame the Sobel loop never visits) keep the
original image's bytes unchanged. -/
theorem detectEdges_interior_binary_border_copied (img : ImageData) (t : ℕ) :
    (∀ x y, 1 ≤ x → x + 1 < img.width → 1 ≤ y → y + 1 < img.height →
      (∀ c, c < 3 → (detectEdges img t).data (redIdx img.width x y + c) =
        if (t : ℝ) < Real.sqrt
            ((sobelGx (convertToGrayscale img) x y : ℝ) ^ 2 +
              (sobelGy (convertToGrayscale img) x y : ℝ) ^ 2)
        then 255 else 0) ∧
      (detectEdges img t).data (redIdx img.width x y + 3) = 255) ∧
    (∀ x y, x < img.width → y < img.height →
      ¬(1 ≤ x ∧ x + 1 < img.width ∧ 1 ≤ y ∧ y + 1 < img.height) →
      ∀ c, c < 4 → (detectEdges img t).data (redIdx img.width x y + c) =
        img.data (redIdx img.width x y + c)) := by
  constructor
  · intro x y hx1 hx2 hy1 hy2
    have hxw : x < img.width := by omega
    have hdiv : ∀ c, c < 4 → (redIdx img.width x y + c) / 4 % img.width = x ∧
        (redIdx img.width x y + c) / 4 / img.width = y := by
      intro c hc
      rw [redIdx_add_div img.width x y c hc]
      exact pixel_decode img.width x y hxw
    constructor
    · intro c hc
      have hc4 : c < 4 := by omega
      show (if _ ∧ _ ∧ _ ∧ _ then _ else _) = _
      rw [(hdiv c hc4).1, (hdiv c hc4).2, redIdx_add_mod img.width x y c hc4]
      rw [if_pos ⟨hx1, hx2, hy1, hy2⟩, if_neg (by omega : ¬ c = 3)]
      by_cases hmag : (t : ℤ) ^ 2 <
          (sobelGx (convertToGrayscale img) x y) ^ 2 +
          (sobelGy (convertToGrayscale img) x y) ^ 2
      · rw [if_pos hmag, if_pos ((sqrt_mag_gt_iff t _ _).mpr hmag)]
      · rw [if_neg hmag, if_neg (fun h => hmag ((sqrt_mag_gt_iff t _ _).mp h))]
    · show (if _ ∧ _ ∧ _ ∧ _ then _ else _) = _
      rw [(hdiv 3 (by norm_num)).1, (hdiv 3 (by norm_num)).2,
        redIdx_add_mod img.width x y 3 (by norm_num)]
      rw [if_pos ⟨hx1, hx2, hy1, hy2⟩, if_pos rfl]
  · intro x y hxw hyh hbord c hc
    show (if _ ∧ _ ∧ _ ∧ _ then _ else _) = _
    rw [redIdx_add_div img.width x y c hc, (pixel_decode img.width x y hxw).1,
      (pixel_decode img.width x y hxw).2]
    rw [if_neg hbord]

/-- Concrete 3×3 constant-7 image: counterexample input for C9. -/
def c9Img : ImageData := ⟨fun _ => 7, 3, 3⟩

/-- Counterexample to C9 as stated: the output of `detectEdges` is *not*
binary at every pixel — at the border pixel (0,0) of a 3×3 constant
image with value 7, the output byte is 7, neither 0 nor 255 (the Sobel
loop never writes the one-pixel border frame, which keeps the base
image's values). -/
theorem detectEdges_not_binary_counterexample :
    ¬((detectEdges c9Img 50).data 0 = 0 ∨ (detectEdges c9Img 50).data 0 = 255) := by
  have h : (detectEdges c9Img 50).data 0 = 7 := by
    simp only [detectEdges, c9Img]
    norm_num
  rw [h]
  norm_num

/-- Witness: the amended C9 theorem applied at the concrete 3×3 image,
threshold 0, interior pixel (1,1) channel 0 and border pixel (0,0). -/
theorem detectEdges_interior_binary_border_copied_witness :
    ((detectEdges c9Img 0).data (redIdx c9Img.width 1 1 + 0) =
      if (0 : ℕ) < Real.sqrt
          ((sobelGx (convertToGrayscale c9Img) 1 1 : ℝ) ^ 2 +
            (sobelGy (convertToGrayscale c9Img) 1 1 : ℝ) ^ 2)
      then 255 else 0) ∧
    (detectEdges c9Img 0).data (redIdx c9Img.width 0 0 + 0) =
      c9Img.data (redIdx c9Img.width 0 0 + 0) :=
  ⟨((detectEdges_interior_binary_border_copied c9Img 0).1 1 1 (by norm_num)
      (by norm_num [c9Img]) (by norm_num) (by norm_num [c9Img])).1 0 (by norm_num),
    (detectEdges_interior_binary_border_copied c9Img 0).2 0 0
      (by norm_num [c9Img]) (by norm_num [c9Img]) (by norm_num) 0 (by norm_num)⟩

/-! ## Flood fill (bezierUtils.ts lines 60-137) -/

/-- RGBA color with byte components, as read from a pixel buffer. -/
structure ColorN where
  r : ℕ
  g : ℕ
  b : ℕ
  a : ℕ
deriving DecidableEq, Repr

/-- `isColorSimilar(color1, color2, tolerance)` (bezierUtils.ts lines
130-137): per-channel absolute difference at most the tolerance. -/
def isColorSimilar (c1 c2 : ColorN) (tolerance : ℚ) : Prop :=
  ((((c1.r : ℤ) - c2.r).natAbs : ℚ) ≤ tolerance) ∧
  ((((c1.g : ℤ) - c2.g).natAbs : ℚ) ≤ tolerance) ∧
  ((((c1.b : ℤ) - c2.b).natAbs : ℚ) ≤ tolerance) ∧
  ((((c1.a : ℤ) - c2.a).natAbs : ℚ) ≤ tolerance)

instance (c1 c2 : ColorN) (tolerance : ℚ) :
    Decidable (isColorSimilar c1 c2 tolerance) :=
  inferInstanceAs (Decidable (_ ∧ _ ∧ _ ∧ _))

/-- `(point.y * width + point.x) * 4` for signed point coordinates; the
flood fill only reads or writes it after the bounds check, where the
product is nonnegative and `toNat` is exact. -/
def pixIdxZ (w : ℕ) (x y : ℤ) : ℕ := ((y * w + x) * 4).toNat

/-- The RGBA bytes at pixel byte-offset `i`. -/
def colorAt (img : ImageData) (i : ℕ) : ColorN :=
  ⟨img.data i, img.data (i + 1), img.data (i + 2), img.data (i + 3)⟩

/-- Store the fill color into the four bytes of the pixel at offset `i`
(clamped writes into the `Uint8ClampedArray`). -/
def write4 (buf : ℕ → ℕ) (i : ℕ) (fill : ColorN) : ℕ → ℕ := fun j =>
  if j = i then min fill.r 255
  else if j = i + 1 then min fill.g 255
  else if j = i + 2 then min fill.b 255
  else if j = i + 3 then min fill.a 255
  else buf j

/-- The bounds check of the flood-fill loop:
`point.x < 0 || point.x >= width || point.y < 0 || point.y >= height`. -/
def outOfBounds (img : ImageData) (p : ℤ × ℤ) : Prop :=
  p.1 < 0 ∨ (img.width : ℤ) ≤ p.1 ∨ p.2 < 0 ∨ (img.height : ℤ) ≤ p.2

instance (img : ImageData) (p : ℤ × ℤ) : Decidable (outOfBounds img p) :=
  inferInstanceAs (Decidable (_ ∨ _ ∨ _ ∨ _))

/-- The `while (stack.length > 0)` loop of `floodFillInMask`
(bezierUtils.ts lines 81-122), with explicit fuel; `none` models a loop
that did not finish within the fuel.  Each iteration pops a point; a
visited point is skipped, otherwise it is marked visited and then
discarded (out of bounds / zero mask / color not similar to the seed) or
painted with the fill color, pushing its four 4-neighbours. -/
def floodLoop (img mask : ImageData) (startColor fill : ColorN) (tolerance : ℚ) :
    ℕ → List (ℤ × ℤ) → List (ℤ × ℤ) → (ℕ → ℕ) → Option (ℕ → ℕ)
  | 0, _, _, _ => none
  | _ + 1, [], _, buf => some buf
  | fuel + 1, p :: rest, visited, buf =>
    if p ∈ visited then
      floodLoop img mask startColor fill tolerance fuel rest visited buf
    else if outOfBounds img p then
      floodLoop img mask startColor fill tolerance fuel rest (p :: visited) buf
    else if mask.data (pixIdxZ img.width p.1 p.2) = 0 then
      floodLoop img mask startColor fill tolerance fuel rest (p :: visited) buf
    else if ¬ isColorSimilar startColor
        (colorAt img (pixIdxZ img.width p.1 p.2)) tolerance then
      floodLoop img mask startColor fill tolerance fuel rest (p :: visited) buf
    else
      floodLoop img mask startColor fill tolerance fuel
        ((p.1 - 1, p.2) :: (p.1 + 1, p.2) :: (p.1, p.2 - 1) :: (p.1, p.2 + 1) :: rest)
        (p :: visited)
        (write4 buf (pixIdxZ img.width p.1 p.2) fill)

/-- Every point the loop ever stacks lies in this rectangle (or is the
seed): coordinates in `[-1, width] × [-1, height]`. -/
def floodRect (img : ImageData) : Finset (ℤ × ℤ) :=
  Finset.Icc (-1 : ℤ) (img.width : ℤ) ×ˢ Finset.Icc (-1 : ℤ) (img.height : ℤ)

/-- Fuel that provably suffices for the flood-fill loop. -/
def floodFuel (img : ImageData) : ℕ :=
  4 * ((img.width + 2) * (img.height + 2) + 1) + 2

/-- `floodFillInMask(imageData, mask, startPoint, fillColor, tolerance)`
(bezierUtils.ts lines 60-125): copy the buffer, read the seed color at
the start point, run the stack loop. -/
def floodFillInMask (imageData mask : ImageData) (startPoint : ℤ × ℤ)
    (fillColor : ColorN) (tolerance : ℚ) : Option ImageData :=
  (floodLoop imageData mask
      (colorAt imageData (pixIdxZ imageData.width startPoint.1 startPoint.2))
      fillColor tolerance (floodFuel imageData) [startPoint] []
      imageData.data).map
    (fun d => ⟨d, imageData.width, imageData.height⟩)

lemma filter_not_mem_cons_card (A : Finset (ℤ × ℤ)) (visited : List (ℤ × ℤ))
    (p : ℤ × ℤ) (hpA : p ∈ A) (hpv : p ∉ visited) :
    (A.filter (fun q => q ∉ p :: visited)).card + 1 =
      (A.filter (fun q => q ∉ visited)).card := by
  have he : A.filter (fun q => q ∉ p :: visited) =
      (A.filter (fun q => q ∉ visited)).erase p := by
    ext q
    simp only [Finset.mem_filter, Finset.mem_erase, List.mem_cons]
    constructor
    · rintro ⟨hqA, hq⟩
      push_neg at hq
      exact ⟨hq.1, hqA, hq.2⟩
    · rintro ⟨hne, hqA, hq⟩
      exact ⟨hqA, by push_neg; exact ⟨hne, hq⟩⟩
  rw [he]
  exact Finset.card_erase_add_one
    (Finset.mem_filter.mpr ⟨hpA, hpv⟩)

lemma neighbors_in_rect (img : ImageData) (p : ℤ × ℤ)
    (h : ¬ outOfBounds img p) :
    (p.1 - 1, p.2) ∈ floodRect img ∧ (p.1 + 1, p.2) ∈ floodRect img ∧
      (p.1, p.2 - 1) ∈ floodRect img ∧ (p.1, p.2 + 1) ∈ floodRect img := by
  unfold outOfBounds at h
  push_neg at h
  obtain ⟨h1, h2, h3, h4⟩ := h
  unfold floodRect
  refine ⟨?_, ?_, ?_, ?_⟩ <;>
    · rw [Finset.mem_product]
      constructor <;> rw [Finset.mem_Icc] <;> constructor <;> omega

lemma floodLoop_isSome (img mask : ImageData) (sc fill : ColorN) (tol : ℚ)
    (A : Finset (ℤ × ℤ)) (hrect : floodRect img ⊆ A) :
    ∀ (fuel : ℕ) (stack visited : List (ℤ × ℤ)) (buf : ℕ → ℕ),
      (∀ p ∈ stack, p ∈ A) →
      stack.length + 4 * (A.filter (fun q => q ∉ visited)).card < fuel →
      (floodLoop img mask sc fill tol fuel stack visited buf).isSome := by
  intro fuel
  induction fuel with
  | zero => intro stack visited buf _ hm; omega
  | succ n ih =>
    intro stack visited buf hs hm
    match stack with
    | [] => simp [floodLoop]
    | p :: rest =>
      rw [floodLoop]
      have hrest : ∀ q ∈ rest, q ∈ A :=
        fun q hq => hs q (List.mem_cons_of_mem p hq)
      have hpA : p ∈ A := hs p (List.mem_cons_self p rest)
      by_cases hv : p ∈ visited
      · rw [if_pos hv]
        apply ih rest visited buf hrest
        simp only [List.length_cons] at hm
        omega
      · rw [if_neg hv]
        have hcard := filter_not_mem_cons_card A visited p hpA hv
        simp only [List.length_cons] at hm
        by_cases hob : outOfBounds img p
        · rw [if_pos hob]
          apply ih rest (p :: visited) buf hrest
          omega
        · rw [if_neg hob]
          by_cases hmz : mask.data (pixIdxZ img.width p.1 p.2) = 0
          · rw [if_pos hmz]
            apply ih rest (p :: visited) buf hrest
            omega
          · rw [if_neg hmz]
            by_cases hsim : isColorSimilar sc
                (colorAt img (pixIdxZ img.width p.1 p.2)) tol
            · rw [if_neg (by simpa using hsim)]
              have hnb := neighbors_in_rect img p hob
              apply ih _ (p :: visited)
                (write4 buf (pixIdxZ img.width p.1 p.2) fill)
              · intro q hq
                rcases List.mem_cons.mp hq with rfl | hq'
                · exact hrect hnb.1
                rcases List.mem_cons.mp hq' with rfl | hq''
                · exact hrect hnb.2.1
                rcases List.mem_cons.mp hq'' with rfl | hq'''
                · exact hrect hnb.2.2.1
                rcases List.mem_cons.mp hq''' with rfl | hq''''
                · exact hrect hnb.2.2.2
                · exact hrest q hq''''
              · simp only [List.length_cons]
                omega
            · rw [if_pos (by simpa using hsim)]
              apply ih rest (p :: visited) buf hrest
              omega

/-- Invariant: every byte of `buf` that differs from the original image
belongs to an in-bounds pixel whose mask is nonzero and whose color is
within tolerance of the seed color. -/
def FloodPaintOK (img mask : ImageData) (sc : ColorN) (tol : ℚ)
    (buf : ℕ → ℕ) : Prop :=
  ∀ j, buf j ≠ img.data j →
    ∃ x y : ℤ, 0 ≤ x ∧ x < (img.width : ℤ) ∧ 0 ≤ y ∧ y < (img.height : ℤ) ∧
      (∃ c, c < 4 ∧ j = pixIdxZ img.width x y + c) ∧
      mask.data (pixIdxZ img.width x y) ≠ 0 ∧
      isColorSimilar sc (colorAt img (pixIdxZ img.width x y)) tol

lemma floodLoop_paint (img mask : ImageData) (sc fill : ColorN) (tol : ℚ) :
    ∀ (fuel : ℕ) (stack visited : List (ℤ × ℤ)) (buf : ℕ → ℕ) (out : ℕ → ℕ),
      FloodPaintOK img mask sc tol buf →
      floodLoop img mask sc fill tol fuel stack visited buf = some out →
      FloodPaintOK img mask sc tol out := by
  intro fuel
  induction fuel with
  | zero =>
    intro stack visited buf out _ hrun
    simp [floodLoop] at hrun
  | succ n ih =>
    intro stack visited buf out hok hrun
    match stack with
    | [] =>
      simp only [floodLoop, Option.some.injEq] at hrun
      rw [← hrun]
      exact hok
    | p :: rest =>
      rw [floodLoop] at hrun
      by_cases hv : p ∈ visited
      · rw [if_pos hv] at hrun
        exact ih rest visited buf out hok hrun
      · rw [if_neg hv] at hrun
        by_cases hob : outOfBounds img p
        · rw [if_pos hob] at hrun
          exact ih rest (p :: visited) buf out hok hrun
        · rw [if_neg hob] at hrun
          by_cases hmz : mask.data (pixIdxZ img.width p.1 p.2) = 0
          · rw [if_pos hmz] at hrun
            exact ih rest (p :: visited) buf out hok hrun
          · rw [if_neg hmz] at hrun
            by_cases hsim : isColorSimilar sc
                (colorAt img (pixIdxZ img.width p.1 p.2)) tol
            · rw [if_neg (by simpa using hsim)] at hrun
              refine ih _ (p :: visited) _ out ?_ hrun
              intro j hj
              unfold outOfBounds at hob
              push_neg at hob
              obtain ⟨h1, h2, h3, h4⟩ := hob
              by_cases hw0 : j = pixIdxZ img.width p.1 p.2
              · exact ⟨p.1, p.2, h1, h2, h3, h4, ⟨0, by norm_num, by omega⟩, hmz, hsim⟩
              by_cases hw1 : j = pixIdxZ img.width p.1 p.2 + 1
              · exact ⟨p.1, p.2, h1, h2, h3, h4, ⟨1, by norm_num, hw1⟩, hmz, hsim⟩
              by_cases hw2 : j = pixIdxZ img.width p.1 p.2 + 2
              · exact ⟨p.1, p.2, h1, h2, h3, h4, ⟨2, by norm_num, hw2⟩, hmz, hsim⟩
              by_cases hw3 : j = pixIdxZ img.width p.1 p.2 + 3
              · exact ⟨p.1, p.2, h1, h2, h3, h4, ⟨3, by norm_num, hw3⟩, hmz, hsim⟩
              · apply hok
                have : write4 buf (pixIdxZ img.width p.1 p.2) fill j = buf j := by
                  unfold write4
                  rw [if_neg hw0, if_neg hw1, if_neg hw2, if_neg hw3]
                rw [this] at hj
                exact hj
            · rw [if_pos (by simpa using hsim)] at hrun
              exact ih rest (p :: visited) buf out hok hrun

/-- C7. For every image, mask, fill color, tolerance and in-bounds seed
pixel, the flood fill terminates — the provided fuel, justified by the
visited list (each coordinate is processed at most once), always
suffices, including on a fully uniform image — and it never paints a
pixel whose mask value is zero or whose color differs from the seed
pixel's color by more than the tolerance in any channel. -/
theorem floodFill_terminates_and_respects_bounds (img mask : ImageData)
    (fill : ColorN) (tol : ℚ) (sx sy : ℤ)
    (hsx1 : 0 ≤ sx) (hsx2 : sx < (img.width : ℤ))
    (hsy1 : 0 ≤ sy) (hsy2 : sy < (img.height : ℤ)) :
    ∃ res, floodFillInMask img mask (sx, sy) fill tol = some res ∧
      ∀ j, res.data j ≠ img.data j →
        ∃ x y : ℤ, 0 ≤ x ∧ x < (img.width : ℤ) ∧ 0 ≤ y ∧ y < (img.height : ℤ) ∧
          (∃ c, c < 4 ∧ j = pixIdxZ img.width x y + c) ∧
          mask.data (pixIdxZ img.width x y) ≠ 0 ∧
          isColorSimilar (colorAt img (pixIdxZ img.width sx sy))
            (colorAt img (pixIdxZ img.width x y)) tol := by
  set sc := colorAt img (pixIdxZ img.width sx sy) with hsc
  have hstart : (sx, sy) ∈ floodRect img := by
    unfold floodRect
    rw [Finset.mem_product]
    constructor <;> rw [Finset.mem_Icc] <;> constructor <;> omega
  have hcardIcc : ∀ n : ℕ, (Finset.Icc (-1 : ℤ) (n : ℤ)).card = n + 2 := by
    intro n
    rw [Int.card_Icc]
    omega
  have hcard : (floodRect img).card = (img.width + 2) * (img.height + 2) := by
    unfold floodRect
    rw [Finset.card_product, hcardIcc, hcardIcc]
  have hsome : (floodLoop img mask sc fill tol (floodFuel img)
      [(sx, sy)] [] img.data).isSome := by
    apply floodLoop_isSome img mask sc fill tol (floodRect img)
      (Finset.Subset.refl _)
    · intro p hp
      rcases List.mem_cons.mp hp with rfl | hp'
      · exact hstart
      · cases hp'
    · have hle : (Finset.filter (fun q => q ∉ ([] : List (ℤ × ℤ)))
          (floodRect img)).card ≤ (floodRect img).card :=
        Finset.card_filter_le _ _
      unfold floodFuel
      simp only [List.length_cons, List.length_nil]
      omega
  obtain ⟨out, hout⟩ := Option.isSome_iff_exists.mp hsome
  refine ⟨⟨out, img.width, img.height⟩, ?_, ?_⟩
  · unfold floodFillInMask
    rw [← hsc, hout]
    rfl
  · have hpaint := floodLoop_paint img mask sc fill tol (floodFuel img)
      [(sx, sy)] [] img.data out (fun j hj => absurd rfl hj) hout
    intro j hj
    exact hpaint j hj

/-- Concrete 1×1 image for the C7/C8 witnesses. -/
def cffImg : ImageData := ⟨fun _ => 9, 1, 1⟩

/-- Concrete all-zero 1×1 mask for the C7/C8 witnesses. -/
def cffMask : ImageData := ⟨fun _ => 0, 1, 1⟩

/-- Witness: the C7 theorem applied at the concrete 1×1 image, zero mask
and seed (0,0). -/
theorem floodFill_terminates_and_respects_bounds_witness :
    ∃ res, floodFillInMask cffImg cffMask (0, 0) ⟨255, 0, 0, 255⟩ 10 = some res ∧
      ∀ j, res.data j ≠ cffImg.data j →
        ∃ x y : ℤ, 0 ≤ x ∧ x < (cffImg.width : ℤ) ∧ 0 ≤ y ∧ y < (cffImg.height : ℤ) ∧
          (∃ c, c < 4 ∧ j = pixIdxZ cffImg.width x y + c) ∧
          cffMask.data (pixIdxZ cffImg.width x y) ≠ 0 ∧
          isColorSimilar (colorAt cffImg (pixIdxZ cffImg.width 0 0))
            (colorAt cffImg (pixIdxZ cffImg.width x y)) 10 :=
  floodFill_terminates_and_respects_bounds cffImg cffMask ⟨255, 0, 0, 255⟩ 10 0 0
    (by norm_num) (by norm_num [cffImg]) (by norm_num) (by norm_num [cffImg])

/-- C8. The compositor and the flood fill build a fresh output buffer of
the base image's dimensions; the byte copy semantics is visible at every
byte the loops do not write (it equals the base image byte), and the base
image argument itself is immutable in this embedding — both functions
only construct a new buffer starting from `new Uint8ClampedArray(...)`. -/
theorem compositor_floodfill_fresh_buffer (sqrtFn : ℚ → ℚ)
    (base mask img mask2 : ImageData) (color : ColorQ) (options : BlendOptions)
    (fill : ColorN) (tol : ℚ) (s : ℤ × ℤ) :
    ((applyColorToMaskedRegion sqrtFn base mask color options).width = base.width ∧
      (applyColorToMaskedRegion sqrtFn base mask color options).height = base.height) ∧
    (∀ j, ¬(4 * (j / 4) < dataLen base ∧ 0 < mask.data (4 * (j / 4))) →
      (applyColorToMaskedRegion sqrtFn base mask color options).data j = base.data j) ∧
    (∀ res, floodFillInMask img mask2 s fill tol = some res →
      res.width = img.width ∧ res.height = img.height) := by
  refine ⟨⟨rfl, rfl⟩, ?_, ?_⟩
  · intro j hj
    show (if _ ∧ _ then _ else _) = _
    rw [if_neg hj]
  · intro res hres
    unfold floodFillInMask at hres
    obtain ⟨d, _, hd⟩ := Option.map_eq_some'.mp hres
    rw [← hd]
    exact ⟨rfl, rfl⟩

/-- Witness: the C8 theorem applied at concrete inputs; the flood-fill
clause is instantiated with the concretely computed `some` result. -/
theorem compositor_floodfill_fresh_buffer_witness :
    ((applyColorToMaskedRegion id cffImg cffMask ⟨255, 0, 0, 255⟩
        ⟨.normal, 1⟩).width = cffImg.width ∧
      (applyColorToMaskedRegion id cffImg cffMask ⟨255, 0, 0, 255⟩
        ⟨.normal, 1⟩).height = cffImg.height) ∧
    ((applyColorToMaskedRegion id cffImg cffMask ⟨255, 0, 0, 255⟩
        ⟨.normal, 1⟩).data 0 = cffImg.data 0) ∧
    (⟨cffImg.data, 1, 1⟩ : ImageData).width = cffImg.width := by
  have h := compositor_floodfill_fresh_buffer id cffImg cffMask cffImg cffMask
    ⟨255, 0, 0, 255⟩ ⟨.normal, 1⟩ ⟨255, 0, 0, 255⟩ 10 (0, 0)
  refine ⟨h.1, ?_, ?_⟩
  · apply h.2.1 0
    intro hcon
    have : cffMask.data (4 * (0 / 4)) = 0 := rfl
    omega
  · have hrun : floodFillInMask cffImg cffMask (0, 0) ⟨255, 0, 0, 255⟩ 10 =
        some ⟨cffImg.data, 1, 1⟩ := rfl
    exact (h.2.2 ⟨cffImg.data, 1, 1⟩ hrun).1

/-! ## Douglas-Peucker simplification (bezierUtils.ts lines 429-488)

`pointToLineDistance` and the comparisons of `simplifyPolygon` only ever
compare square roots of nonnegative quantities, so the embedding works
with squared distances throughout: `√a > √b ↔ a > b` and, for
`tolerance ≥ 0`, `√a > tolerance ↔ a > tolerance²`; a negative tolerance
makes `√a > tolerance` always true, modelled by the explicit
`tolerance < 0` disjunct. -/

/-- `lenSq = C*C + D*D` of `pointToLineDistance`. -/
def lineLenSq (s e : Point) : ℚ :=
  (e.x - s.x) * (e.x - s.x) + (e.y - s.y) * (e.y - s.y)

/-- `dot = A*C + B*D` of `pointToLineDistance`. -/
def lineDot (p s e : Point) : ℚ :=
  (p.x - s.x) * (e.x - s.x) + (p.y - s.y) * (e.y - s.y)

/-- `param = dot / lenSq`. -/
def lineParam (p s e : Point) : ℚ := lineDot p s e / lineLenSq s e

/-- The clamped projection abscissa `xx` of `pointToLineDistance`. -/
def projX (p s e : Point) : ℚ :=
  if lineParam p s e < 0 then s.x
  else if 1 < lineParam p s e then e.x
  else s.x + lineParam p s e * (e.x - s.x)

/-- The clamped projection ordinate `yy` of `pointToLineDistance`. -/
def projY (p s e : Point) : ℚ :=
  if lineParam p s e < 0 then s.y
  else if 1 < lineParam p s e then e.y
  else s.y + lineParam p s e * (e.y - s.y)

/-- Squared `pointToLineDistance(point, lineStart, lineEnd)`
(bezierUtils.ts lines 460-488). -/
def pointToLineDistSq (p s e : Point) : ℚ :=
  if lineLenSq s e = 0 then
    (p.x - s.x) * (p.x - s.x) + (p.y - s.y) * (p.y - s.y)
  else
    (p.x - projX p s e) * (p.x - projX p s e) +
      (p.y - projY p s e) * (p.y - projY p s e)

/-- One step of the max-distance scan of `simplifyPolygon`:
`if (distance > maxDistance) { maxDistance = distance; maxIndex = i }`
(squared distances compare identically). -/
def findMaxStep (pts : List Point) (s e : Point) (acc : ℚ × ℕ) (i : ℕ) : ℚ × ℕ :=
  if acc.1 < pointToLineDistSq (pts.getD i originPt) s e
  then (pointToLineDistSq (pts.getD i originPt) s e, i) else acc

/-- The max-distance scan over interior indices `1 .. length-2`, starting
from `maxDistance = 0`, `maxIndex = 0`. -/
def findMaxPair (pts : List Point) (s e : Point) : ℚ × ℕ :=
  (List.range' 1 (pts.length - 2)).foldl (findMaxStep pts s e) (0, 0)

/-- `simplifyPolygon` recursion with explicit fuel (`none` = the source's
recursion would not terminate at this input).  The branch condition
models `maxDistance > tolerance`, i.e. `√maxDistSq > tolerance`. -/
def simplifyPolygonF (tolerance : ℚ) : ℕ → List Point → Option (List Point)
  | 0, _ => none
  | fuel + 1, pts =>
    if pts.length ≤ 2 then some pts
    else
      if tolerance < 0 ∨ tolerance ^ 2 <
          (findMaxPair pts (pts.getD 0 originPt)
            (pts.getD (pts.length - 1) originPt)).1 then
        match simplifyPolygonF tolerance fuel
                (pts.take ((findMaxPair pts (pts.getD 0 originPt)
                  (pts.getD (pts.length - 1) originPt)).2 + 1)),
              simplifyPolygonF tolerance fuel
                (pts.drop (findMaxPair pts (pts.getD 0 originPt)
                  (pts.getD (pts.length - 1) originPt)).2) with
        | some fh, some sh => some (fh.dropLast ++ sh)
        | _, _ => none
      else some [pts.getD 0 originPt, pts.getD (pts.length - 1) originPt]

/-- `simplifyPolygon(points, tolerance)` (bezierUtils.ts lines 429-455):
run the recursion with fuel `length + 1`, which suffices whenever the
source recursion terminates (every recursive call strictly shortens the
list unless the recursion repeats an identical argument forever). -/
def simplifyPolygon (points : List Point) (tolerance : ℚ) : Option (List Point) :=
  simplifyPolygonF tolerance (points.length + 1) points

lemma pointToLineDistSq_nonneg (p s e : Point) : 0 ≤ pointToLineDistSq p s e := by
  unfold pointToLineDistSq
  split <;> exact add_nonneg (mul_self_nonneg _) (mul_self_nonneg _)

lemma findMax_foldl_cases (pts : List Point) (s e : Point) :
    ∀ (l : List ℕ) (acc : ℚ × ℕ),
      l.foldl (findMaxStep pts s e) acc = acc ∨
      ∃ i ∈ l, l.foldl (findMaxStep pts s e) acc =
        (pointToLineDistSq (pts.getD i originPt) s e, i) := by
  intro l
  induction l with
  | nil => intro acc; left; rfl
  | cons x xs ih =>
    intro acc
    rw [List.foldl_cons]
    rcases ih (findMaxStep pts s e acc x) with h | ⟨i, hi, h⟩
    · rw [h]
      unfold findMaxStep
      by_cases hlt : acc.1 < pointToLineDistSq (pts.getD x originPt) s e
      · rw [if_pos hlt]
        right
        exact ⟨x, List.mem_cons_self _ _, rfl⟩
      · rw [if_neg hlt]
        left
        rfl
    · right
      exact ⟨i, List.mem_cons_of_mem _ hi, h⟩

lemma findMax_foldl_fst_mono (pts : List Point) (s e : Point) :
    ∀ (l : List ℕ) (acc : ℚ × ℕ), acc.1 ≤ (l.foldl (findMaxStep pts s e) acc).1 := by
  intro l
  induction l with
  | nil => intro acc; exact le_refl _
  | cons x xs ih =>
    intro acc
    rw [List.foldl_cons]
    refine le_trans ?_ (ih (findMaxStep pts s e acc x))
    unfold findMaxStep
    by_cases hlt : acc.1 < pointToLineDistSq (pts.getD x originPt) s e
    · rw [if_pos hlt]
      exact le_of_lt hlt
    · rw [if_neg hlt]

lemma findMax_foldl_fst_ge (pts : List Point) (s e : Point) :
    ∀ (l : List ℕ) (acc : ℚ × ℕ) (i : ℕ), i ∈ l →
      pointToLineDistSq (pts.getD i originPt) s e ≤
        (l.foldl (findMaxStep pts s e) acc).1 := by
  intro l
  induction l with
  | nil => intro acc i hi; cases hi
  | cons x xs ih =>
    intro acc i hi
    rw [List.foldl_cons]
    rcases List.mem_cons.mp hi with rfl | hi'
    · refine le_trans ?_ (findMax_foldl_fst_mono pts s e xs (findMaxStep pts s e acc i))
      unfold findMaxStep
      by_cases hlt : acc.1 < pointToLineDistSq (pts.getD i originPt) s e
      · rw [if_pos hlt]
      · rw [if_neg hlt]
        exact le_of_not_lt hlt
    · exact ih (findMaxStep pts s e acc x) i hi'

lemma findMaxPair_cases (pts : List Point) (s e : Point) :
    findMaxPair pts s e = (0, 0) ∨
      (1 ≤ (findMaxPair pts s e).2 ∧ (findMaxPair pts s e).2 ≤ pts.length - 2) := by
  unfold findMaxPair
  rcases findMax_foldl_cases pts s e (List.range' 1 (pts.length - 2)) (0, 0) with
    h | ⟨i, hi, h⟩
  · left
    exact h
  · right
    rw [h]
    rw [List.mem_range'] at hi
    obtain ⟨k, hk, rfl⟩ := hi
    constructor
    · omega
    · omega

lemma findMaxPair_fst_ge (pts : List Point) (s e : Point) (i : ℕ)
    (h1 : 1 ≤ i) (h2 : i + 1 < pts.length) :
    pointToLineDistSq (pts.getD i originPt) s e ≤ (findMaxPair pts s e).1 := by
  unfold findMaxPair
  apply findMax_foldl_fst_ge
  rw [List.mem_range']
  exact ⟨i - 1, by omega, by omega⟩

lemma head?_take {α : Type} (l : List α) (n : ℕ) (hn : 1 ≤ n) :
    (l.take n).head? = l.head? := by
  cases l with
  | nil => simp
  | cons a t =>
    cases n with
    | zero => omega
    | succ m => rfl

lemma head?_dropLast {α : Type} (l : List α) (h : 2 ≤ l.length) :
    l.dropLast.head? = l.head? := by
  match l with
  | [] => simp at h
  | [a] => simp at h
  | a :: b :: t => rfl

lemma head?_append_left {α : Type} (l l' : List α) (h : l ≠ []) :
    (l ++ l').head? = l.head? := by
  cases l with
  | nil => exact absurd rfl h
  | cons a t => rfl

lemma getLast?_append_right {α : Type} (l l' : List α) (h : l' ≠ []) :
    (l ++ l').getLast? = l'.getLast? := by
  have hs : l'.getLast?.isSome := List.getLast?_isSome.mpr h
  obtain ⟨v, hv⟩ := Option.isSome_iff_exists.mp hs
  rw [List.getLast?_append, hv]
  rfl

lemma getLast?_drop {α : Type} (l : List α) (m : ℕ) (h : m < l.length) :
    (l.drop m).getLast? = l.getLast? := by
  rw [List.getLast?_eq_getElem?, List.getLast?_eq_getElem?, List.length_drop,
    List.getElem?_drop]
  congr 1
  omega

lemma getD_eq_getElem (l : List Point) (i : ℕ) (h : i < l.length) :
    l.getD i originPt = l[i] := by
  rw [List.getD_eq_getElem?_getD, List.getElem?_eq_getElem h]
  rfl

lemma head?_eq_some_getD (l : List Point) (h : l ≠ []) :
    l.head? = some (l.getD 0 originPt) := by
  cases l with
  | nil => exact absurd rfl h
  | cons a t => rfl

lemma getLast?_eq_some_getD (l : List Point) (h : l ≠ []) :
    l.getLast? = some (l.getD (l.length - 1) originPt) := by
  have hlt : l.length - 1 < l.length := by
    cases l with
    | nil => exact absurd rfl h
    | cons a t => simp
  rw [List.getLast?_eq_getElem?, List.getElem?_eq_getElem hlt,
    getD_eq_getElem l _ hlt]

/-- Endpoint preservation and termination of the fueled Douglas-Peucker
recursion, for nonnegative tolerance. -/
lemma simplifyF_spec : ∀ (fuel : ℕ) (pts : List Point) (tol : ℚ),
    0 ≤ tol → pts.length < fuel →
    ∃ l, simplifyPolygonF tol fuel pts = some l ∧
      l.head? = pts.head? ∧ l.getLast? = pts.getLast? ∧
      (2 ≤ pts.length → 2 ≤ l.length) := by
  intro fuel
  induction fuel with
  | zero => intro pts tol _ hflen; omega
  | succ n ih =>
    intro pts tol htol hlen
    rw [simplifyPolygonF]
    by_cases hsmall : pts.length ≤ 2
    · rw [if_pos hsmall]
      exact ⟨pts, rfl, rfl, rfl, fun h => h⟩
    · rw [if_neg hsmall]
      push_neg at hsmall
      set s := pts.getD 0 originPt with hs
      set e := pts.getD (pts.length - 1) originPt with he
      by_cases hbr : tol < 0 ∨ tol ^ 2 < (findMaxPair pts s e).1
      · rw [if_pos hbr]
        have hmi : 1 ≤ (findMaxPair pts s e).2 ∧
            (findMaxPair pts s e).2 ≤ pts.length - 2 := by
          rcases findMaxPair_cases pts s e with h0 | hb
          · exfalso
            rcases hbr with h | h
            · linarith
            · rw [h0] at h
              simp only at h
              nlinarith [sq_nonneg tol]
          · exact hb
        set mi := (findMaxPair pts s e).2
        obtain ⟨fh, hfh, hfh1, hfh2, hfh3⟩ := ih (pts.take (mi + 1)) tol htol
          (by rw [List.length_take]; omega)
        obtain ⟨sh, hsh, hsh1, hsh2, hsh3⟩ := ih (pts.drop mi) tol htol
          (by rw [List.length_drop]; omega)
        rw [hfh, hsh]
        have hfh_len : 2 ≤ fh.length := hfh3 (by rw [List.length_take]; omega)
        have hsh_len : 2 ≤ sh.length := hsh3 (by rw [List.length_drop]; omega)
        have hfh_ne : fh.dropLast ≠ [] := by
          intro hcon
          have hlc := congrArg List.length hcon
          rw [List.length_dropLast] at hlc
          simp only [List.length_nil] at hlc
          omega
        have hsh_ne : sh ≠ [] := by
          intro hcon
          rw [hcon] at hsh_len
          simp at hsh_len
        refine ⟨fh.dropLast ++ sh, rfl, ?_, ?_, ?_⟩
        · rw [head?_append_left _ _ hfh_ne, head?_dropLast fh hfh_len, hfh1,
            head?_take _ _ (by omega)]
        · rw [getLast?_append_right _ _ hsh_ne, hsh2, getLast?_drop _ _ (by omega)]
        · intro _
          rw [List.length_append, List.length_dropLast]
          omega
      · rw [if_neg hbr]
        have hne : pts ≠ [] := by
          intro hcon
          rw [hcon] at hsmall
          simp at hsmall
        refine ⟨[s, e], rfl, ?_, ?_, fun _ => by norm_num⟩
        · rw [head?_eq_some_getD pts hne]
          rfl
        · rw [getLast?_eq_some_getD pts hne]
          rfl

/-- C5 (amended). For every non-empty input and every *nonnegative*
tolerance, `simplifyPolygon` terminates and returns a sequence whose
first and last points equal the input's first and last points.  (For a
negative tolerance the source recursion need not terminate; see the
counterexample.) -/
theorem simplifyPolygon_preserves_endpoints (points : List Point) (tolerance : ℚ)
    (htol : 0 ≤ tolerance) (hne : points ≠ []) :
    ∃ l, simplifyPolygon points tolerance = some l ∧
      l.head? = points.head? ∧ l.getLast? = points.getLast? := by
  obtain ⟨l, h1, h2, h3, _⟩ :=
    simplifyF_spec (points.length + 1) points tolerance htol (by omega)
  exact ⟨l, h1, h2, h3⟩

/-- Witness: the amended C5 theorem applied at a concrete two-point list
and tolerance 2. -/
theorem simplifyPolygon_preserves_endpoints_witness :
    ∃ l, simplifyPolygon [⟨0, 0⟩, ⟨3, 4⟩] 2 = some l ∧
      l.head? = ([⟨0, 0⟩, ⟨3, 4⟩] : List Point).head? ∧
      l.getLast? = ([⟨0, 0⟩, ⟨3, 4⟩] : List Point).getLast? :=
  simplifyPolygon_preserves_endpoints [⟨0, 0⟩, ⟨3, 4⟩] 2 (by norm_num)
    (by simp)

/-- Counterexample to C5 as stated ("for every tolerance"): at tolerance
-1 on three collinear points, the maximum interior distance is 0, `0 >
-1` forces the recursive branch with `maxIndex = 0`, and the second
recursive call receives `points.slice(0)` — the identical argument — so
the source recursion never terminates (stack overflow).  In the fueled
model, no amount of fuel produces a result. -/
theorem simplifyPolygon_negative_tolerance_divergence :
    (∀ fuel, simplifyPolygonF (-1) fuel [⟨0, 0⟩, ⟨1, 0⟩, ⟨2, 0⟩] = none) ∧
    simplifyPolygon [⟨0, 0⟩, ⟨1, 0⟩, ⟨2, 0⟩] (-1) = none := by
  have hmain : ∀ fuel, simplifyPolygonF (-1) fuel [⟨0, 0⟩, ⟨1, 0⟩, ⟨2, 0⟩] = none := by
    intro fuel
    induction fuel with
    | zero => rfl
    | succ n ih =>
      rw [simplifyPolygonF]
      norm_num [findMaxPair, findMaxStep, pointToLineDistSq, lineLenSq,
        lineParam, lineDot, projX, projY, ih]
      cases simplifyPolygonF (-1) n [⟨0, 0⟩] <;> rfl
  exact ⟨hmain, hmain _⟩

/-- Cross-product collinearity of three points:
`(b - a) × (c - a) = 0`. -/
def Collinear3 (a b c : Point) : Prop :=
  (b.x - a.x) * (c.y - a.y) - (b.y - a.y) * (c.x - a.x) = 0

/-- No three points of the list (in any index order `i < j < k`) are
collinear; in particular all points are pairwise distinct. -/
def NoThreeCollinear (l : List Point) : Prop :=
  ∀ k, k < l.length → ∀ j, j < k → ∀ i, i < j →
    ¬ Collinear3 (l.getD i originPt) (l.getD j originPt) (l.getD k originPt)

lemma sq_sum_eq_zero {a b : ℚ} (h : a * a + b * b = 0) : a = 0 ∧ b = 0 := by
  constructor <;> nlinarith [mul_self_nonneg a, mul_self_nonneg b]

/-- A point not collinear with the chord endpoints has positive clamped
squared distance to the chord. -/
lemma distSq_pos_of_not_collinear (p s e : Point) (h : ¬ Collinear3 s p e) :
    0 < pointToLineDistSq p s e := by
  rcases lt_or_eq_of_le (pointToLineDistSq_nonneg p s e) with hlt | heq
  · exact hlt
  · exfalso
    apply h
    unfold Collinear3
    unfold pointToLineDistSq at heq
    by_cases hlen : lineLenSq s e = 0
    · unfold lineLenSq at hlen
      obtain ⟨h1, h2⟩ := sq_sum_eq_zero hlen
      rw [show e.y - s.y = 0 from h2, show e.x - s.x = 0 from h1]
      ring
    · rw [if_neg hlen] at heq
      obtain ⟨h1, h2⟩ := sq_sum_eq_zero heq.symm
      unfold projX at h1
      unfold projY at h2
      by_cases hp1 : lineParam p s e < 0
      · rw [if_pos hp1] at h1 h2
        have hx : p.x = s.x := by linarith
        have hy : p.y = s.y := by linarith
        rw [hx, hy]
        ring
      · rw [if_neg hp1] at h1 h2
        by_cases hp2 : 1 < lineParam p s e
        · rw [if_pos hp2] at h1 h2
          have hx : p.x = e.x := by linarith
          have hy : p.y = e.y := by linarith
          rw [hx, hy]
          ring
        · rw [if_neg hp2] at h1 h2
          have hx : p.x = s.x + lineParam p s e * (e.x - s.x) := by linarith
          have hy : p.y = s.y + lineParam p s e * (e.y - s.y) := by linarith
          rw [hx, hy]
          ring

lemma getD_take (l : List Point) (n i : ℕ) (h : i < n) :
    (l.take n).getD i originPt = l.getD i originPt := by
  rw [List.getD_eq_getElem?_getD, List.getD_eq_getElem?_getD, List.getElem?_take,
    if_pos h]

lemma getD_drop (l : List Point) (m i : ℕ) :
    (l.drop m).getD i originPt = l.getD (m + i) originPt := by
  rw [List.getD_eq_getElem?_getD, List.getD_eq_getElem?_getD, List.getElem?_drop]

lemma noThree_take (l : List Point) (n : ℕ) (h : NoThreeCollinear l) :
    NoThreeCollinear (l.take n) := by
  intro k hk j hj i hi
  rw [List.length_take] at hk
  rw [getD_take _ _ _ (by omega), getD_take _ _ _ (by omega),
    getD_take _ _ _ (by omega)]
  exact h k (by omega) j hj i hi

lemma noThree_drop (l : List Point) (m : ℕ) (h : NoThreeCollinear l) :
    NoThreeCollinear (l.drop m) := by
  intro k hk j hj i hi
  rw [List.length_drop] at hk
  rw [getD_drop, getD_drop, getD_drop]
  exact h (m + k) (by omega) (m + j) (by omega) (m + i) (by omega)

/-- Zero tolerance performs no simplification when no three points are
collinear: at every recursion level the scanned maximum squared distance
is positive, the split point is interior, and the halves concatenate back
to the input. -/
lemma simplifyF_zero_tol : ∀ (fuel : ℕ) (pts : List Point),
    pts.length < fuel → 2 ≤ pts.length → NoThreeCollinear pts →
    simplifyPolygonF 0 fuel pts = some pts := by
  intro fuel
  induction fuel with
  | zero => intro pts h _ _; omega
  | succ n ih =>
    intro pts hlen h2 hnc
    rw [simplifyPolygonF]
    by_cases hsmall : pts.length ≤ 2
    · rw [if_pos hsmall]
    · rw [if_neg hsmall]
      push_neg at hsmall
      set s := pts.getD 0 originPt with hs
      set e := pts.getD (pts.length - 1) originPt with he
      have hncol : ¬ Collinear3 s (pts.getD 1 originPt) e :=
        hnc (pts.length - 1) (by omega) 1 (by omega) 0 (by omega)
      have hd1 : 0 < pointToLineDistSq (pts.getD 1 originPt) s e :=
        distSq_pos_of_not_collinear _ _ _ hncol
      have hge : pointToLineDistSq (pts.getD 1 originPt) s e ≤
          (findMaxPair pts s e).1 :=
        findMaxPair_fst_ge pts s e 1 (le_refl 1) (by omega)
      have hbr : (0 : ℚ) < 0 ∨ (0 : ℚ) ^ 2 < (findMaxPair pts s e).1 := by
        right
        nlinarith
      rw [if_pos hbr]
      have hmi : 1 ≤ (findMaxPair pts s e).2 ∧
          (findMaxPair pts s e).2 ≤ pts.length - 2 := by
        rcases findMaxPair_cases pts s e with h0 | hb
        · exfalso
          rw [h0] at hge
          simp only at hge
          linarith
        · exact hb
      set mi := (findMaxPair pts s e).2
      have hfh := ih (pts.take (mi + 1)) (by rw [List.length_take]; omega)
        (by rw [List.length_take]; omega) (noThree_take pts _ hnc)
      have hsh := ih (pts.drop mi) (by rw [List.length_drop]; omega)
        (by rw [List.length_drop]; omega) (noThree_drop pts _ hnc)
      rw [hfh, hsh]
      show some ((pts.take (mi + 1)).dropLast ++ pts.drop mi) = some pts
      congr 1
      have hdl : (pts.take (mi + 1)).dropLast = pts.take mi := by
        rw [List.dropLast_eq_take, List.take_take, List.length_take]
        congr 1
        omega
      rw [hdl, List.take_append_drop]

/-- C4 (amended). For every input list of ≥3 points no three of which
are collinear, `simplifyPolygon(points, 0)` returns the input unchanged.
(The pairwise-distinct hypothesis of the original claim is not enough:
three distinct collinear points are collapsed to the chord endpoints —
see the counterexample.) -/
theorem simplifyPolygon_zero_tolerance_id (points : List Point)
    (h3 : 3 ≤ points.length) (hnc : NoThreeCollinear points) :
    simplifyPolygon points 0 = some points :=
  simplifyF_zero_tol (points.length + 1) points (by omega) (by omega) hnc

/-- Counterexample to C4 as stated: the three pairwise-distinct collinear
points (0,0), (1,0), (2,0) at tolerance 0 are *not* returned unchanged —
the interior point is dropped. -/
theorem simplifyPolygon_zero_tolerance_counterexample :
    simplifyPolygon [⟨0, 0⟩, ⟨1, 0⟩, ⟨2, 0⟩] 0 = some [⟨0, 0⟩, ⟨2, 0⟩] ∧
    ([⟨0, 0⟩, ⟨2, 0⟩] : List Point) ≠ [⟨0, 0⟩, ⟨1, 0⟩, ⟨2, 0⟩] := by
  constructor
  · norm_num [simplifyPolygon, simplifyPolygonF, findMaxPair, findMaxStep,
      pointToLineDistSq, lineLenSq, lineParam, lineDot, projX, projY]
  · simp

/-- Witness: the amended C4 theorem applied at a concrete triangle. -/
theorem simplifyPolygon_zero_tolerance_id_witness :
    simplifyPolygon [⟨0, 0⟩, ⟨4, 0⟩, ⟨0, 4⟩] 0 =
      some [⟨0, 0⟩, ⟨4, 0⟩, ⟨0, 4⟩] :=
  simplifyPolygon_zero_tolerance_id [⟨0, 0⟩, ⟨4, 0⟩, ⟨0, 4⟩] (by norm_num)
    (by
      intro k hk j hj i hi
      simp only [List.length_cons, List.length_nil] at hk
      interval_cases k <;> interval_cases j <;> interval_cases i <;>
        · simp only [Collinear3, List.getD_cons_zero, List.getD_cons_succ]
          norm_num)

/-! ## Path builder: pen-tool clicks (CanvasEditor.tsx lines 158-254) -/

/-- Squared distance between two points (`dx*dx + dy*dy`); the source
compares `Math.sqrt(dx*dx + dy*dy) < 15`, equivalent to the squared
comparison against 225. -/
def distSqPts (a b : Point) : ℚ :=
  (a.x - b.x) * (a.x - b.x) + (a.y - b.y) * (a.y - b.y)

/-- The path-construction state of `CanvasEditor`: `currentPath`,
`isDrawingPath`, and the `(points, closed)` pair the last `finalizePath`
call stored into the active segment (`none` before any finalize). -/
structure PathBuilderState where
  currentPath : List Point
  isDrawingPath : Bool
  finalized : Option (List Point × Bool)
deriving DecidableEq, Repr

/-- One pen-tool click (`handleCanvasMouseDown`, `case "pen"`,
CanvasEditor.tsx lines 158-203): the first click starts the path with a
single point; each further click appends the point and — only when the
new path has more than 2 points — tests the appended point against the
path's first point with close tolerance 15 (`dx² + dy² < 225`); on
closure `finalizePath([...newPath, startPoint], true)` records the path
with the first point repeated and `closed = true` and resets the builder.
The pen tool never angle-snaps. -/
def penToolClick (st : PathBuilderState) (p : Point) : PathBuilderState :=
  if st.isDrawingPath = false then ⟨[p], true, st.finalized⟩
  else if 2 < (st.currentPath ++ [p]).length ∧
      distSqPts p ((st.currentPath ++ [p]).getD 0 originPt) < 225 then
    ⟨[], false,
      some ((st.currentPath ++ [p]) ++ [(st.currentPath ++ [p]).getD 0 originPt],
        true)⟩
  else ⟨st.currentPath ++ [p], true, st.finalized⟩

/-- C2. The auto-close scenario: clicking (10,10), (100,10), (100,100),
(12,11) in polyline (pen) mode leaves the builder un-finalized after the
first three clicks, and the fourth click — within tolerance 15 of the
first point — finalizes the path as closed with exactly 5 recorded
points, the 4 clicked points plus a repeat of (10,10). -/
theorem penTool_auto_close_scenario :
    ([(⟨100, 10⟩ : Point), ⟨100, 100⟩].foldl penToolClick
        (penToolClick ⟨[], false, none⟩ ⟨10, 10⟩)) =
      ⟨[⟨10, 10⟩, ⟨100, 10⟩, ⟨100, 100⟩], true, none⟩ ∧
    ([(⟨100, 10⟩ : Point), ⟨100, 100⟩, ⟨12, 11⟩].foldl penToolClick
        (penToolClick ⟨[], false, none⟩ ⟨10, 10⟩)) =
      ⟨[], false,
        some ([⟨10, 10⟩, ⟨100, 10⟩, ⟨100, 100⟩, ⟨12, 11⟩, ⟨10, 10⟩], true)⟩ ∧
    ([(⟨10, 10⟩ : Point), ⟨100, 10⟩, ⟨100, 100⟩, ⟨12, 11⟩, ⟨10, 10⟩] :
      List Point).length = 5 ∧
    distSqPts ⟨12, 11⟩ ⟨10, 10⟩ < 225 := by
  refine ⟨?_, ?_, by norm_num, by norm_num [distSqPts]⟩ <;>
    norm_num [penToolClick, distSqPts, List.getD_cons_zero]

/-! ## Region document: applying color to a segment
(CanvasEditor.tsx lines 257-292, SegmentationManager.tsx lines 9-16) -/

/-- `interface Segment` (SegmentationManager.tsx lines 9-16). -/
structure Segment where
  id : String
  name : String
  color : String
  visible : Bool
  closed : Bool
  points : List Point
deriving DecidableEq, Repr

/-- A fabric.js canvas object, as far as the segmentation logic reads
it: the base image, dashed outline paths (`isSegmentPath: true`) and
filled regions (`isSegmentPath: false`), with their custom `segmentId`
tags and construction data. -/
inductive CanvasObj where
  | baseImage
  | outline (points : List Point) (stroke : String) (segmentId : Option String)
  | filled (points : List Point) (fill : String) (opacity : ℚ) (segmentId : String)
deriving DecidableEq, Repr

/-- The `segmentId` custom property (`undefined` for the base image). -/
def CanvasObj.segId : CanvasObj → Option String
  | .baseImage => none
  | .outline _ _ sid => sid
  | .filled _ _ _ sid => some sid

/-- The `isSegmentPath` custom property (truthy only on outlines). -/
def CanvasObj.isSegPath : CanvasObj → Bool
  | .outline _ _ _ => true
  | _ => false

/-- `createFilledRegion(points, fillColor, segmentId)` (CanvasEditor.tsx
lines 78-101): `null` for fewer than 3 points, otherwise a filled path
at the editor's current opacity, tagged with the segment id and
`isSegmentPath: false`. -/
def createFilledRegion (points : List Point) (fillColor : String)
    (opacity : ℚ) (segmentId : String) : Option CanvasObj :=
  if points.length < 3 then none
  else some (.filled points fillColor opacity segmentId)

/-- The editor state the fill operation touches: the segment list, the
canvas object list (in stacking order), the snapshot history with its
cursor, the base-image reference and the current fill opacity. -/
structure EditorState where
  segments : List Segment
  objects : List CanvasObj
  history : List (List CanvasObj)
  historyIndex : ℤ
  baseImage : Option CanvasObj
  opacity : ℚ
deriving DecidableEq, Repr

/-- `saveState(canvas)` (CanvasEditor.tsx lines 44-50): truncate forward
history at the cursor, push a snapshot of the canvas objects, move the
cursor to the end. -/
def saveState (st : EditorState) : EditorState :=
  { st with
    history := st.history.take (st.historyIndex + 1).toNat ++ [st.objects],
    historyIndex :=
      ((st.history.take (st.historyIndex + 1).toNat ++ [st.objects]).length : ℤ) - 1 }

/-- fabric's `canvas.moveTo(obj, index)`: remove the object and reinsert
it at the given position. -/
def moveObjTo (objs : List CanvasObj) (o : CanvasObj) (i : ℕ) : List CanvasObj :=
  (objs.erase o).take i ++ [o] ++ (objs.erase o).drop i

/-- JavaScript `array.indexOf`: first index, `-1` when absent. -/
def jsIndexOf (objs : List CanvasObj) (o : CanvasObj) : ℤ :=
  if o ∈ objs then objs.indexOf o else -1

/-- `existingFills` removal (CanvasEditor.tsx lines 267-270): drop every
object tagged with this segment id that is not an outline path. -/
def removeFills (objs : List CanvasObj) (segmentId : String) : List CanvasObj :=
  objs.filter (fun o => ¬(o.segId = some segmentId ∧ o.isSegPath = false))

/-- Layering of the fresh fill (CanvasEditor.tsx lines 274-280): add it,
then — when a base image exists — move it just above the base image. -/
def layerFill (objs : List CanvasObj) (filledRegion : CanvasObj)
    (baseImage : Option CanvasObj) : List CanvasObj :=
  match baseImage with
  | some b => moveObjTo (objs ++ [filledRegion]) filledRegion
      (jsIndexOf (objs ++ [filledRegion]) b + 1).toNat
  | none => objs ++ [filledRegion]

/-- The failure condition `toast.error("Segment must be closed...")`
reports (spec §7: `RegionNotClosed`). -/
inductive FillError where
  | RegionNotClosed
deriving DecidableEq, Repr

/-- Replace the canvas objects of a state. -/
def withObjects (st : EditorState) (objs : List CanvasObj) : EditorState :=
  { st with objects := objs }

/-- Replace the segment list of a state. -/
def withSegments (st : EditorState) (segs : List Segment) : EditorState :=
  { st with segments := segs }

/-- `setSegments(prev => prev.map(...))` of the fill operation: update
the target segment's color. -/
def updateSegColor (segs : List Segment) (segmentId fillColor : String) :
    List Segment :=
  segs.map (fun s => if s.id = segmentId then { s with color := fillColor } else s)

/-- `applyColorToSegment(segmentId, fillColor)` (CanvasEditor.tsx lines
257-292): a missing, open, or degenerate (<3 points) segment fails with
`RegionNotClosed` and no state change; otherwise the segment's existing
fills are removed, a fresh filled region is created and layered just
above the base image, the state is saved to history, and the segment's
color is updated. -/
def applyColorToSegment (st : EditorState) (segmentId fillColor : String) :
    Option FillError × EditorState :=
  match st.segments.find? (fun s => s.id = segmentId) with
  | none => (some .RegionNotClosed, st)
  | some segment =>
    if segment.closed = false ∨ segment.points.length < 3 then
      (some .RegionNotClosed, st)
    else
      match createFilledRegion segment.points fillColor st.opacity segmentId with
      | none => (none, { st with objects := removeFills st.objects segmentId })
      | some filledRegion =>
        (none, withSegments
          (saveState (withObjects st
            (layerFill (removeFills st.objects segmentId) filledRegion
              st.baseImage)))
          (updateSegColor st.segments segmentId fillColor))

lemma mem_moveObjTo (objs : List CanvasObj) (o : CanvasObj) (i : ℕ) :
    o ∈ moveObjTo objs o i := by
  unfold moveObjTo
  simp

lemma mem_of_mem_moveObjTo (objs : List CanvasObj) (o q : CanvasObj) (i : ℕ)
    (h : q ∈ moveObjTo objs o i) : q = o ∨ q ∈ objs := by
  unfold moveObjTo at h
  rcases List.mem_append.mp h with h1 | h1
  · rcases List.mem_append.mp h1 with h2 | h2
    · exact Or.inr (List.erase_subset _ _ (List.take_subset _ _ h2))
    · simp only [List.mem_singleton] at h2
      exact Or.inl h2
  · exact Or.inr (List.erase_subset _ _ (List.drop_subset _ _ h1))

lemma mem_layerFill (objs : List CanvasObj) (fr : CanvasObj)
    (b : Option CanvasObj) : fr ∈ layerFill objs fr b := by
  unfold layerFill
  cases b with
  | none => simp
  | some bb => exact mem_moveObjTo _ _ _

lemma mem_of_mem_layerFill (objs : List CanvasObj) (fr q : CanvasObj)
    (b : Option CanvasObj) (h : q ∈ layerFill objs fr b) :
    q = fr ∨ q ∈ objs := by
  unfold layerFill at h
  cases b with
  | none =>
    rcases List.mem_append.mp h with h1 | h1
    · exact Or.inr h1
    · simp only [List.mem_singleton] at h1
      exact Or.inl h1
  | some bb =>
    rcases mem_of_mem_moveObjTo _ _ _ _ h with h1 | h1
    · exact Or.inl h1
    · rcases List.mem_append.mp h1 with h2 | h2
      · exact Or.inr h2
      · simp only [List.mem_singleton] at h2
        exact Or.inl h2

/-- C3. Requesting a fill on a region whose `closed` flag is false or
whose point list has fewer than 3 points fails with `RegionNotClosed`
and returns the document state (segments, canvas objects, history)
entirely unchanged; on a closed region with ≥3 points the operation
succeeds: the recomputed fill object is stored on the canvas, every
remaining fill tagged with the region is the fresh one, the snapshot
history is extended with the new canvas state, and the region's color is
updated. -/
theorem applyFill_region_not_closed_guard (st : EditorState)
    (segmentId fillColor : String) (seg : Segment)
    (hfind : st.segments.find? (fun s => s.id = segmentId) = some seg) :
    (seg.closed = false ∨ seg.points.length < 3 →
      applyColorToSegment st segmentId fillColor = (some .RegionNotClosed, st)) ∧
    (seg.closed = true → 3 ≤ seg.points.length →
      (applyColorToSegment st segmentId fillColor).1 = none ∧
      (CanvasObj.filled seg.points fillColor st.opacity segmentId) ∈
        (applyColorToSegment st segmentId fillColor).2.objects ∧
      (∀ q ∈ (applyColorToSegment st segmentId fillColor).2.objects,
        q.segId = some segmentId → q.isSegPath = false →
        q = CanvasObj.filled seg.points fillColor st.opacity segmentId) ∧
      (applyColorToSegment st segmentId fillColor).2.segments =
        st.segments.map (fun s =>
          if s.id = segmentId then { s with color := fillColor } else s) ∧
      (applyColorToSegment st segmentId fillColor).2.history =
        st.history.take (st.historyIndex + 1).toNat ++
          [(applyColorToSegment st segmentId fillColor).2.objects]) := by
  constructor
  · intro hbad
    unfold applyColorToSegment
    rw [hfind]
    simp only
    rw [if_pos hbad]
  · intro hclosed hlen
    have hguard : ¬(seg.closed = false ∨ seg.points.length < 3) := by
      push_neg
      refine ⟨?_, by omega⟩
      rw [hclosed]
      simp
    have hcfr : createFilledRegion seg.points fillColor st.opacity segmentId =
        some (.filled seg.points fillColor st.opacity segmentId) := by
      unfold createFilledRegion
      rw [if_neg (by omega)]
    have hrun : applyColorToSegment st segmentId fillColor =
        (none, withSegments
          (saveState (withObjects st
            (layerFill (removeFills st.objects segmentId)
              (.filled seg.points fillColor st.opacity segmentId)
              st.baseImage)))
          (updateSegColor st.segments segmentId fillColor)) := by
      unfold applyColorToSegment
      rw [hfind]
      simp only
      rw [if_neg hguard, hcfr]
    rw [hrun]
    refine ⟨rfl, mem_layerFill _ _ _, ?_, rfl, rfl⟩
    intro q hq hqid hqpath
    rcases mem_of_mem_layerFill _ _ _ _ hq with h1 | h1
    · exact h1
    · exfalso
      have := (List.mem_filter.mp h1).2
      simp only [decide_eq_true_eq] at this
      exact this ⟨hqid, hqpath⟩

/-- Concrete triangle for the C3 witness. -/
def triPts : List Point := [⟨0, 0⟩, ⟨50, 0⟩, ⟨0, 50⟩]

/-- An open segment (closed flag false). -/
def segOpen : Segment := ⟨"s1", "Segment 1", "#fff", true, false, [⟨0, 0⟩, ⟨50, 0⟩]⟩

/-- A closed triangular segment. -/
def segClosed : Segment := ⟨"s2", "Segment 2", "#fff", true, true, triPts⟩

/-- Editor state holding only the open segment. -/
def stOpen : EditorState := ⟨[segOpen], [.baseImage], [], -1, some .baseImage, 4/5⟩

/-- Editor state holding only the closed segment. -/
def stClosed : EditorState := ⟨[segClosed], [.baseImage], [], -1, some .baseImage, 4/5⟩

/-- Witness: the C3 theorem applied at a concrete open segment (error,
state unchanged) and at a concrete closed triangle (fill stored). -/
theorem applyFill_region_not_closed_guard_witness :
    applyColorToSegment stOpen "s1" "#ff0000" = (some .RegionNotClosed, stOpen) ∧
    ((applyColorToSegment stClosed "s2" "#00ff00").1 = none ∧
      (CanvasObj.filled segClosed.points "#00ff00" stClosed.opacity "s2") ∈
        (applyColorToSegment stClosed "s2" "#00ff00").2.objects) := by
  constructor
  · exact (applyFill_region_not_closed_guard stOpen "s1" "#ff0000" segOpen
      (by rfl)).1 (Or.inl rfl)
  · have h := (applyFill_region_not_closed_guard stClosed "s2" "#00ff00" segClosed
      (by rfl)).2 rfl (by norm_num [segClosed, triPts])
    exact ⟨h.1, h.2.1⟩

end ImageColorizer
